import Mathlib

/-!
Shallow embedding of `roblabla/storage_device` (src/block_device.rs,
src/storage_device.rs): the block-to-byte adapter `StorageBlockDevice`, its
split algorithm, the fast (zero-copy) and slow (per-block) middle paths, the
error-wrapping public `StorageDevice` implementation, and the file-backed
pass-through implementations.

Conventions of the embedding:
* a block device with `S`-byte blocks is modelled as a pure state `Dev`
  (per-block byte contents plus per-block failure injection); a multi-block
  transfer proceeds block by block and aborts at the first failing block,
  exactly as the `BlockDevice` implementation for `std::fs::File` does
  (block_device.rs lines 115-138);
* Rust panics (integer-underflow / out-of-bounds slice indexing) are modelled
  as the `none` result;
* the runtime buffer-address alignment test (`buf_misalignment == 0`) cannot
  be observed in a pure model, so it is an explicit `aligned : Bool`
  parameter selecting between the two middle-region paths of the source;
* every device call issued by the adapter is recorded in a call log so that
  operation-count and abort-on-first-error properties can be stated.
-/

set_option autoImplicit false

namespace StorageDev

/-- Operation kind carried by errors (`crate::error::IoOperation`, as used in
`storage_device.rs`). -/
inductive IoOperation where
  | read
  | write
deriving DecidableEq, Repr

/-- Block-level error (`crate::error::BlockDeviceError`, with the fields the
source constructs: operation kind, starting block index, block count). -/
structure BlockDeviceError where
  operation : IoOperation
  start_index : Nat
  block_count : Nat
deriving DecidableEq, Repr

/-- Byte-level error (`crate::error::IoError`, with the fields the source
constructs: operation kind, byte offset, byte length, optional nested
block-level error). -/
structure IoError where
  operation : IoOperation
  offset : Nat
  len : Nat
  block_device_error : Option BlockDeviceError
deriving DecidableEq, Repr

/-- Pure model of a `BlockDevice` with `S`-byte blocks: `mem b j` is byte `j`
of block `b`; `readFail b` / `writeFail b` optionally inject an error when
block `b` is transferred.  A multi-block transfer works block by block and
aborts at the first failing block, as the `std::fs::File` implementation of
`BlockDevice` does. -/
structure Dev where
  mem : Nat → Nat → Nat
  readFail : Nat → Option BlockDeviceError
  writeFail : Nat → Option BlockDeviceError

/-- The `S` bytes of block `b` of the device. -/
def blockBytes (S : Nat) (d : Dev) (b : Nat) : List Nat :=
  (List.range S).map (d.mem b)

/-- Multi-block read: the bytes of `cnt` consecutive blocks starting at
`start`, aborting at the first failing block. -/
def devRead (S : Nat) (d : Dev) (start cnt : Nat) :
    Except BlockDeviceError (List Nat) :=
  match cnt with
  | 0 => .ok []
  | n + 1 =>
    match d.readFail start with
    | some e => .error e
    | none =>
      match devRead S d (start + 1) n with
      | .error e => .error e
      | .ok rest => .ok (blockBytes S d start ++ rest)

/-- Overwrite block `b` of the device with the `S` bytes `bytes`. -/
def writeBlock (S : Nat) (d : Dev) (b : Nat) (bytes : List Nat) : Dev :=
  { d with mem := fun b2 j => if b2 = b ∧ j < S then bytes.getD j 0 else d.mem b2 j }

/-- Multi-block write: writes the given blocks at consecutive indices starting
at `start`, aborting at the first failing block (blocks before it stay
written). -/
def devWrite (S : Nat) (d : Dev) (start : Nat) (blocks : List (List Nat)) :
    Dev × Option BlockDeviceError :=
  match blocks with
  | [] => (d, none)
  | blk :: rest =>
    match d.writeFail start with
    | some e => (d, some e)
    | none => devWrite S (writeBlock S d start blk) (start + 1) rest

/-- One call from the adapter to the wrapped block device: starting block
index and number of blocks transferred. -/
inductive DevCall where
  | read (start count : Nat)
  | write (start count : Nat)
deriving DecidableEq, Repr

/-- State threaded through the adapter: the wrapped block device, the scratch
block `tmp_block`, and the log of device calls issued so far. -/
structure AdapterState where
  dev : Dev
  tmp : List Nat
  log : List DevCall

/-- The call `self.block_device.read(blocks, BlockIndex(start))` over `cnt` blocks,
recording the call in the log. -/
def bdRead (S : Nat) (st : AdapterState) (start cnt : Nat) :
    AdapterState × Except BlockDeviceError (List Nat) :=
  ({ st with log := st.log ++ [DevCall.read start cnt] }, devRead S st.dev start cnt)

/-- The call `self.block_device.write(blocks, BlockIndex(start))`, recording the call
in the log. -/
def bdWrite (S : Nat) (st : AdapterState) (start : Nat) (blocks : List (List Nat)) :
    AdapterState × Option BlockDeviceError :=
  ({ st with
      dev := (devWrite S st.dev start blocks).1,
      log := st.log ++ [DevCall.write start blocks.length] },
    (devWrite S st.dev start blocks).2)

/-- Component `first_part_len` of the split (storage_device.rs lines 87 and 190):
`size_of::<BD::Block>() - offset % size_of::<BD::Block>()`. -/
def splitFirstPartLen (S offset : Nat) : Nat := S - offset % S

/-- Component `middle_part_block` of the split (storage_device.rs lines 88 and 191). -/
def splitMiddlePartBlock (S offset : Nat) : Nat :=
  if splitFirstPartLen S offset = 0 then offset / S else offset / S + 1

/-- Leading partial block of a read (storage_device.rs lines 93-108): read one
whole block into the scratch block and return its trailing `flen` bytes. -/
def readFirst (S : Nat) (st : AdapterState) (fblock flen : Nat) :
    AdapterState × Except BlockDeviceError (List Nat) :=
  if 0 < flen then
    match bdRead S st fblock 1 with
    | (st1, .error e) => (st1, .error e)
    | (st1, .ok bytes) => ({ st1 with tmp := bytes }, .ok (bytes.drop (S - flen)))
  else (st, .ok [])

/-- Fallback middle-region read loop (storage_device.rs lines 134-143): one
block at a time through the scratch block, for blocks `b, b+1, ..., stop-1`. -/
def readLoop (S : Nat) (st : AdapterState) (b stop : Nat) :
    AdapterState × Except BlockDeviceError (List Nat) :=
  if b < stop then
    match bdRead S st b 1 with
    | (st1, .error e) => (st1, .error e)
    | (st1, .ok bytes) =>
      match readLoop S { st1 with tmp := bytes } (b + 1) stop with
      | (st2, .error e) => (st2, .error e)
      | (st2, .ok rest) => (st2, .ok (bytes ++ rest))
  else (st, .ok [])
termination_by stop - b
decreasing_by omega

/-- Middle region of a read (storage_device.rs lines 110-146): one multi-block
call on the zero-copy fast path, a per-block loop otherwise.  `aligned` stands
for the runtime test `buf_misalignment == 0`. -/
def readMiddle (S : Nat) (aligned : Bool) (st : AdapterState)
    (mblock eblock mlen : Nat) : AdapterState × Except BlockDeviceError (List Nat) :=
  if aligned then bdRead S st mblock (mlen / S)
  else readLoop S st mblock eblock

/-- Trailing partial block of a read (storage_device.rs lines 148-163): read
one whole block into the scratch block and return its leading `elen` bytes. -/
def readLast (S : Nat) (st : AdapterState) (eblock elen : Nat) :
    AdapterState × Except BlockDeviceError (List Nat) :=
  if 0 < elen then
    match bdRead S st eblock 1 with
    | (st1, .error e) => (st1, .error e)
    | (st1, .ok bytes) => ({ st1 with tmp := bytes }, .ok (bytes.take elen))
  else (st, .ok [])

/-- Model of `StorageBlockDevice::read_internal` (storage_device.rs lines 84-166), with
Rust panics modelled as `none`.  Two panic points exist in the source: the
computation `buf.len() - first_part_len - end_part_len` (line 91) underflows
and the slice `&mut buf[..first_part_len]` (line 97) is out of range whenever
`len < first_part_len`; and line 116 evaluates `&mut buf[0]` on the middle
slice before the `middle_part_len > 0` test on line 118, which is out of
bounds whenever `middle_part_len = 0`.  On success the returned list holds the
`len` bytes read into the caller's buffer. -/
def read_internal (S : Nat) (aligned : Bool) (st : AdapterState)
    (offset len : Nat) : Option (AdapterState × Except BlockDeviceError (List Nat)) :=
  let first_part_block := offset / S
  let first_part_len := splitFirstPartLen S offset
  let middle_part_block := splitMiddlePartBlock S offset
  let end_part_block := (offset + len) / S
  let end_part_len := (offset + len) % S
  if len < first_part_len then none
  else
    let middle_part_len := len - first_part_len - end_part_len
    match readFirst S st first_part_block first_part_len with
    | (st1, .error e) => some (st1, .error e)
    | (st1, .ok buf1) =>
      if middle_part_len = 0 then none
      else
        match readMiddle S aligned st1 middle_part_block end_part_block middle_part_len with
        | (st2, .error e) => some (st2, .error e)
        | (st2, .ok buf2) =>
          match readLast S st2 end_part_block end_part_len with
          | (st3, .error e) => some (st3, .error e)
          | (st3, .ok buf3) => some (st3, .ok (buf1 ++ buf2 ++ buf3))

/-- Leading partial block of a write (storage_device.rs lines 196-221):
read-modify-write of block `fblock`, overwriting its trailing `flen` bytes
with the head of `buf`. -/
def writeFirst (S : Nat) (st : AdapterState) (fblock flen : Nat) (buf : List Nat) :
    AdapterState × Option BlockDeviceError :=
  if 0 < flen then
    match bdRead S st fblock 1 with
    | (st1, .error e) => (st1, some e)
    | (st1, .ok bytes) =>
      bdWrite S { st1 with tmp := bytes.take (S - flen) ++ buf.take flen } fblock
        [bytes.take (S - flen) ++ buf.take flen]
  else (st, none)

/-- Fallback middle-region write loop (storage_device.rs lines 247-256): copy
one block's worth of `data` into the scratch block and write it, for blocks
`b, b+1, ..., stop-1`. -/
def writeLoop (S : Nat) (st : AdapterState) (b stop : Nat) (data : List Nat) :
    AdapterState × Option BlockDeviceError :=
  if b < stop then
    match bdWrite S { st with tmp := data.take S } b [data.take S] with
    | (st1, some e) => (st1, some e)
    | (st1, none) => writeLoop S st1 (b + 1) stop (data.drop S)
  else (st, none)
termination_by stop - b
decreasing_by omega

/-- The `buf.len() / S` blocks the fast write path reinterprets the middle
slice as (storage_device.rs lines 235-239). -/
def middleBlocks (S : Nat) (data : List Nat) : List (List Nat) :=
  (List.range (data.length / S)).map (fun i => (data.drop (i * S)).take S)

/-- Middle region of a write (storage_device.rs lines 223-259): one multi-block
call on the zero-copy fast path, a per-block loop otherwise. -/
def writeMiddle (S : Nat) (aligned : Bool) (st : AdapterState)
    (mblock eblock : Nat) (data : List Nat) : AdapterState × Option BlockDeviceError :=
  if aligned then bdWrite S st mblock (middleBlocks S data)
  else writeLoop S st mblock eblock data

/-- Trailing partial block of a write (storage_device.rs lines 261-285):
read-modify-write of block `eblock`, overwriting its leading `elen` bytes with
`buf` (the trailing slice of the request buffer). -/
def writeLast (S : Nat) (st : AdapterState) (eblock elen : Nat) (buf : List Nat) :
    AdapterState × Option BlockDeviceError :=
  if 0 < elen then
    match bdRead S st eblock 1 with
    | (st1, .error e) => (st1, some e)
    | (st1, .ok bytes) =>
      bdWrite S { st1 with tmp := buf ++ bytes.drop elen } eblock
        [buf ++ bytes.drop elen]
  else (st, none)

/-- Model of `StorageBlockDevice::write_internal` (storage_device.rs lines 187-288),
with Rust panics modelled as `none`; the two panic points (lines 194/200 for
`buf.len() < first_part_len`, line 229 evaluating `&buf[0]` on an empty middle
slice) mirror those of `read_internal`.  `none` in the second component of a
`some` result means success. -/
def write_internal (S : Nat) (aligned : Bool) (st : AdapterState) (offset : Nat)
    (buf : List Nat) : Option (AdapterState × Option BlockDeviceError) :=
  let first_part_block := offset / S
  let first_part_len := splitFirstPartLen S offset
  let middle_part_block := splitMiddlePartBlock S offset
  let end_part_block := (offset + buf.length) / S
  let end_part_len := (offset + buf.length) % S
  if buf.length < first_part_len then none
  else
    let middle_part_len := buf.length - first_part_len - end_part_len
    match writeFirst S st first_part_block first_part_len buf with
    | (st1, some e) => some (st1, some e)
    | (st1, none) =>
      if middle_part_len = 0 then none
      else
        match writeMiddle S aligned st1 middle_part_block end_part_block
            ((buf.drop first_part_len).take middle_part_len) with
        | (st2, some e) => some (st2, some e)
        | (st2, none) =>
          match writeLast S st2 end_part_block end_part_len
              (buf.drop (first_part_len + middle_part_len)) with
          | (st3, some e) => some (st3, some e)
          | (st3, none) => some (st3, none)

/-- Model of `<StorageBlockDevice as StorageDevice>::read` (storage_device.rs lines
292-301): run `read_internal` and wrap any block-level error into an
`IoError` with the operation kind, offset, buffer length and the nested
error. -/
def storageRead (S : Nat) (aligned : Bool) (st : AdapterState) (offset len : Nat) :
    Option (AdapterState × Except IoError (List Nat)) :=
  match read_internal S aligned st offset len with
  | none => none
  | some (st1, .ok bytes) => some (st1, .ok bytes)
  | some (st1, .error e) =>
    some (st1, .error ⟨IoOperation.read, offset, len, some e⟩)

/-- Model of `<StorageBlockDevice as StorageDevice>::write` (storage_device.rs lines
303-312). -/
def storageWrite (S : Nat) (aligned : Bool) (st : AdapterState) (offset : Nat)
    (buf : List Nat) : Option (AdapterState × Option IoError) :=
  match write_internal S aligned st offset buf with
  | none => none
  | some (st1, none) => some (st1, none)
  | some (st1, some e) =>
    some (st1, some ⟨IoOperation.write, offset, buf.length, some e⟩)

/-- Model of `<StorageBlockDevice as StorageDevice>::len` (storage_device.rs lines
314-317): block count times block size. -/
def storageLen (S blockCount : Nat) : Nat := blockCount * S

/-- Byte `p` of the device, block-addressed: byte `p % S` of block `p / S`. -/
def byteAt (S : Nat) (d : Dev) (p : Nat) : Nat := d.mem (p / S) (p % S)

/-- Model of the byte-granular state of an `std::fs::File` together with
failure injection for the underlying seek / read / write system calls. -/
structure FileState where
  bytes : Nat → Nat
  size : Nat
  seekFail : Bool
  readFail : Bool
  writeFail : Bool

/-- Model of `<std::fs::File as StorageDevice>::read` (storage_device.rs lines
337-348): seek then `read_exact`; on failure the error is
`IoError { operation: Read, offset, len, block_device_error: None }`.
`read_exact` fails when the file ends before `len` bytes are available. -/
def fileRead (f : FileState) (offset len : Nat) : Except IoError (List Nat) :=
  if f.seekFail || f.readFail || decide (f.size < offset + len) then
    .error ⟨IoOperation.read, offset, len, none⟩
  else .ok ((List.range len).map (fun i => f.bytes (offset + i)))

/-- Model of `<std::fs::File as StorageDevice>::write` (storage_device.rs lines
351-362): seek then `write_all`; on failure the error is
`IoError { operation: Write, offset, len, block_device_error: None }`. -/
def fileWrite (f : FileState) (offset : Nat) (buf : List Nat) :
    Except IoError FileState :=
  if f.seekFail || f.writeFail then
    .error ⟨IoOperation.write, offset, buf.length, none⟩
  else
    .ok { f with
      bytes := fun p =>
        if offset ≤ p ∧ p < offset + buf.length then buf.getD (p - offset) 0
        else f.bytes p,
      size := max f.size (offset + buf.length) }

/-- Model of `<&std::fs::File as StorageDevice>::read` (storage_device.rs lines
375-386): same as the owned-`File` read. -/
def refFileRead (f : FileState) (offset len : Nat) : Except IoError (List Nat) :=
  if f.seekFail || f.readFail || decide (f.size < offset + len) then
    .error ⟨IoOperation.read, offset, len, none⟩
  else .ok ((List.range len).map (fun i => f.bytes (offset + i)))

/-- Model of `<&std::fs::File as StorageDevice>::write` (storage_device.rs lines
389-400).  The source tags the error of this write path with
`IoOperation::Read` (line 395), which this definition reproduces verbatim. -/
def refFileWrite (f : FileState) (offset : Nat) (buf : List Nat) :
    Except IoError FileState :=
  if f.seekFail || f.writeFail then
    .error ⟨IoOperation.read, offset, buf.length, none⟩
  else
    .ok { f with
      bytes := fun p =>
        if offset ≤ p ∧ p < offset + buf.length then buf.getD (p - offset) 0
        else f.bytes p,
      size := max f.size (offset + buf.length) }

/-- A device with no failure injection whose bytes are given by `g`. -/
def pureDev (g : Nat → Nat → Nat) : Dev := ⟨g, fun _ => none, fun _ => none⟩

/-- A fresh adapter around a device (`StorageBlockDevice::new`): the scratch
block starts as `Block::default()`, i.e. `S` zero bytes, and no call has been
issued yet. -/
def newAdapter (S : Nat) (d : Dev) : AdapterState := ⟨d, List.replicate S 0, []⟩

/-- Device `DbgBlockDevice` of the source's test module: reading fills every block
with byte `j = j as u8`, i.e. `j mod 256`, at each in-block position `j`. -/
def dbgBlockDeviceMem : Nat → Nat → Nat := fun _ j => j % 256

/-- Number of device calls issued by an adapter run (0 for a panicking run). -/
def logLenOf {α : Type} : Option (AdapterState × α) → Nat
  | some (st, _) => st.log.length
  | none => 0

/-- Does the failure schedule `fail` hit any block in `[s, s + n)`? -/
def callRangeFails (fail : Nat → Option BlockDeviceError) : Nat → Nat → Bool
  | _, 0 => false
  | s, n + 1 => (fail s).isSome || callRangeFails fail (s + 1) n

/-- Does a device call touch a block whose transfer is set up to fail?  The
failure schedules of the model never change during an operation, so this is a
property of the device at the start of the operation. -/
def callFails (d : Dev) : DevCall → Bool
  | .read s n => callRangeFails d.readFail s n
  | .write s n => callRangeFails d.writeFail s n

/-- Every call in the list avoids the failing blocks of `d`. -/
def AllOk (d : Dev) (l : List DevCall) : Prop :=
  ∀ c ∈ l, callFails d c = false

/-- The list of calls consists of successful calls followed by one final call
that hits a failing block: the shape of the call trace of an aborted
operation. -/
def EndsFail (d : Dev) (l : List DevCall) : Prop :=
  ∃ pre c, l = pre ++ [c] ∧ AllOk d pre ∧ callFails d c = true

/-- Nested block-level error used by the C8 witness device. -/
def c8WitErr : BlockDeviceError := ⟨IoOperation.read, 0, 1⟩

/-- Witness device for C8: reading block 0 fails, everything else succeeds. -/
def c8WitDev : Dev :=
  ⟨fun b j => b + j, fun b => if b = 0 then some c8WitErr else none, fun _ => none⟩

/-- Fresh adapter around the C8 witness device (block size 2). -/
def c8WitState : AdapterState := ⟨c8WitDev, [0, 0], []⟩

/-- Adapter state after the failing witness read of 2 bytes at offset 0. -/
def c8WitFinal : AdapterState :=
  match storageRead 2 true c8WitState 0 2 with
  | some (st1, _) => st1
  | none => c8WitState

/-- Error returned by the failing witness read. -/
def c8WitIo : IoError := ⟨IoOperation.read, 0, 2, some c8WitErr⟩

/-- Observable outcome of a read: the device byte contents together with the
result delivered to the caller (buffer contents or error), ignoring the
internal scratch block and the call log. -/
def readObs : Option (AdapterState × Except BlockDeviceError (List Nat)) →
    Option ((Nat → Nat → Nat) × Except BlockDeviceError (List Nat)) :=
  Option.map (fun p => (p.1.dev.mem, p.2))

/-- Observable outcome of a write: the device byte contents together with the
success/error result, ignoring the internal scratch block and the call log. -/
def writeObs : Option (AdapterState × Option BlockDeviceError) →
    Option ((Nat → Nat → Nat) × Option BlockDeviceError) :=
  Option.map (fun p => (p.1.dev.mem, p.2))

end StorageDev

namespace StorageDev

/-- C1: the claim states that for every offset and buffer length with
`offset + length <= device length`, a write followed by a read of the same
range returns `Ok` and round-trips the bytes.  Evaluating the code at
block size 2, a device of 8 blocks (16 bytes), offset 0 and a 1-byte buffer
(so `0 + 1 <= 16`): both the write and the read panic (modelled as `none`,
from the underflowing `buf.len() - first_part_len - end_part_len` at
storage_device.rs lines 91/194), so no `Ok` is returned and the round trip
fails. -/
theorem c1_roundtrip_panics_on_short_request :
    storageWrite 2 true (newAdapter 2 (pureDev (fun b j => 10 * b + j))) 0 [42] = none ∧
    storageRead 2 true (newAdapter 2 (pureDev (fun b j => 10 * b + j))) 0 1 = none :=
  ⟨rfl, rfl⟩

/-- C2: the claim states that `read` and `write` never panic.  Evaluating the
code at block size 4, offset 3 and a 1-byte buffer: `middle_part_len = 0`, and
the source evaluates `&mut buf[0]` on the empty middle slice
(storage_device.rs line 116, before the `middle_part_len > 0` test on line
118), an out-of-bounds index panic, modelled as `none`. -/
theorem c2_read_write_panic_in_bounds :
    storageRead 4 true (newAdapter 4 (pureDev dbgBlockDeviceMem)) 3 1 = none ∧
    storageWrite 4 true (newAdapter 4 (pureDev dbgBlockDeviceMem)) 3 [5] = none :=
  ⟨rfl, rfl⟩

/-- C3: the claim states that `first_part_len` is 0 for a block-aligned
offset and that the middle region then begins at block `offset / S`.
Evaluating the split of the code at `S = 512`, `offset = 1024`:
`first_part_len = 512 - 1024 % 512 = 512`, not 0, and `middle_part_block`
is `1024 / 512 + 1 = 3`, not `1024 / 512 = 2` (the `first_part_len == 0`
branch of storage_device.rs line 88 is unreachable). -/
theorem c3_aligned_offset_split :
    splitFirstPartLen 512 1024 = 512 ∧ splitFirstPartLen 512 0 = 512 ∧
    splitMiddlePartBlock 512 1024 = 3 ∧ ¬ splitFirstPartLen 512 1024 = 0 := by
  decide

/-- C4: the claim states that a block-aligned request issues exactly one
block-device call for a read and at most one for a write.  Evaluating the
code at block size 2, offset 0, length 4 (both block-aligned, aligned
buffer): the read issues 2 calls (the leading whole block is still read
through the scratch block) and the write issues 3 calls (a full
read-modify-write of the leading block plus the middle write). -/
theorem c4_aligned_request_call_counts :
    logLenOf (storageRead 2 true (newAdapter 2 (pureDev (fun b j => 10 * b + j))) 0 4) = 2 ∧
    logLenOf (storageWrite 2 true (newAdapter 2 (pureDev (fun b j => 10 * b + j))) 0
      [9, 8, 7, 6]) = 3 :=
  ⟨rfl, rfl⟩

/-- C5: the claim states that a zero-length request at any offset issues no
device calls and succeeds.  Evaluating the code at block size 2 with a
zero-length buffer (offsets 5 and 0): both operations panic (modelled as
`none`) because `first_part_len ≥ 1 > 0 = buf.len()` underflows the
`middle_part_len` computation, instead of returning success. -/
theorem c5_zero_length_panics :
    storageRead 2 true (newAdapter 2 (pureDev (fun _ _ => 3))) 5 0 = none ∧
    storageWrite 2 true (newAdapter 2 (pureDev (fun _ _ => 3))) 0 [] = none :=
  ⟨rfl, rfl⟩

/-- C6: the claim states that with block size 512 and the index-filling test
device, reading 512 bytes at byte offset 7 succeeds and yields byte `k`
equal to `(k + 7) mod 256`.  Evaluating the code: `first_part_len = 505`,
`end_part_len = 7`, so `middle_part_len = 0`, and the source panics at the
unconditional `&mut buf[0]` on the empty middle slice (storage_device.rs
line 116); the read returns no bytes at all. -/
theorem c6_offset7_len512_read_panics :
    storageRead 512 true (newAdapter 512 (pureDev dbgBlockDeviceMem)) 7 512 = none :=
  rfl

/-- C9: the claim states that for both file-backed implementations a failing
write returns an `IoError` whose operation kind is `Write`.  Evaluating the
`&std::fs::File` write implementation at a failing underlying write
(offset 5, 3-byte buffer): the returned error carries operation kind `Read`
(storage_device.rs line 395), not `Write`. -/
theorem c9_ref_file_write_wrong_operation :
    refFileWrite ⟨fun _ => 0, 0, false, false, true⟩ 5 [1, 2, 3] =
      .error ⟨IoOperation.read, 5, 3, none⟩ ∧
    (⟨IoOperation.read, 5, 3, none⟩ : IoError).operation ≠ IoOperation.write :=
  ⟨rfl, by decide⟩

end StorageDev

namespace StorageDev

/-! Arithmetic facts about the split. -/

/-- With a positive block size, `first_part_len = S - offset % S` is never 0:
it lies in `[1, S]`. -/
theorem splitFirstPartLen_pos (S o : Nat) (hS : 0 < S) : 0 < splitFirstPartLen S o := by
  have hm : o % S < S := Nat.mod_lt _ hS
  unfold splitFirstPartLen
  omega

/-- Length `first_part_len` is at most the block size. -/
theorem splitFirstPartLen_le (S o : Nat) : splitFirstPartLen S o ≤ S := by
  unfold splitFirstPartLen
  omega

/-- With a positive block size, `middle_part_block` is always
`offset / S + 1`: the `first_part_len == 0` branch of the source is dead. -/
theorem splitMiddlePartBlock_eq (S o : Nat) (hS : 0 < S) :
    splitMiddlePartBlock S o = o / S + 1 := by
  unfold splitMiddlePartBlock
  rw [if_neg]
  have := splitFirstPartLen_pos S o hS
  omega

/-- The leading region ends exactly at the next block boundary. -/
theorem offset_add_first (S o : Nat) (hS : 0 < S) :
    o + splitFirstPartLen S o = (o / S + 1) * S := by
  have h1 : o / S * S + o % S = o := Nat.div_add_mod' o S
  have hm : o % S < S := Nat.mod_lt _ hS
  have h2 : (o / S + 1) * S = o / S * S + S := by ring
  unfold splitFirstPartLen
  omega

/-- When the buffer reaches the end of its first block, the end block is
strictly after the first block. -/
theorem split_div_le (S o L : Nat) (hS : 0 < S) (hfL : splitFirstPartLen S o ≤ L) :
    o / S + 1 ≤ (o + L) / S := by
  have h2 : (o + L) / S * S + (o + L) % S = o + L := Nat.div_add_mod' (o + L) S
  have hm2 : (o + L) % S < S := Nat.mod_lt _ hS
  have hkey : (o / S + 1) * S ≤ o + L := by
    rw [← offset_add_first S o hS]
    omega
  by_contra hcon
  push_neg at hcon
  have hle : (o + L) / S + 1 ≤ o / S + 1 := by omega
  have := Nat.mul_le_mul_right S hle
  have h3 : ((o + L) / S + 1) * S = (o + L) / S * S + S := by ring
  omega

/-- Length `middle_part_len` is the byte size of the whole-block middle run
`middle_part_block .. end_part_block`. -/
theorem split_middle_len (S o L : Nat) (hS : 0 < S)
    (hfL : splitFirstPartLen S o ≤ L) :
    L - splitFirstPartLen S o - (o + L) % S
      = ((o + L) / S - (o / S + 1)) * S := by
  have h1 : o / S * S + o % S = o := Nat.div_add_mod' o S
  have h2 : (o + L) / S * S + (o + L) % S = o + L := Nat.div_add_mod' (o + L) S
  have hm : o % S < S := Nat.mod_lt _ hS
  have hm2 : (o + L) % S < S := Nat.mod_lt _ hS
  have hdiv := split_div_le S o L hS hfL
  have h3 : ((o + L) / S - (o / S + 1)) * S = (o + L) / S * S - (o / S + 1) * S :=
    Nat.sub_mul _ _ _
  have h4 : (o / S + 1) * S = o / S * S + S := by ring
  have h5 : (o / S + 1) * S ≤ (o + L) / S * S := Nat.mul_le_mul_right S hdiv
  unfold splitFirstPartLen at *
  omega

/-- Quotient `middle_part_len / S` is the number of blocks in the middle run. -/
theorem split_middle_div (S o L : Nat) (hS : 0 < S)
    (hfL : splitFirstPartLen S o ≤ L) :
    (L - splitFirstPartLen S o - (o + L) % S) / S
      = (o + L) / S - (o / S + 1) := by
  rw [split_middle_len S o L hS hfL, Nat.mul_div_cancel _ hS]

/-- With block size 0 every read panics (`first_part_len = 0`, so the middle
length underflow check passes but `middle_part_len = 0` always). -/
theorem read_internal_S_zero (al : Bool) (st : AdapterState) (o L : Nat) :
    read_internal 0 al st o L = none := by
  have hf : splitFirstPartLen 0 o = 0 := by
    unfold splitFirstPartLen
    omega
  unfold read_internal readFirst
  simp [hf, Nat.mod_zero]

/-- With block size 0 every write panics, as for reads. -/
theorem write_internal_S_zero (al : Bool) (st : AdapterState) (o : Nat)
    (buf : List Nat) : write_internal 0 al st o buf = none := by
  have hf : splitFirstPartLen 0 o = 0 := by
    unfold splitFirstPartLen
    omega
  unfold write_internal writeFirst
  simp [hf, Nat.mod_zero]

end StorageDev


namespace StorageDev

/-! The per-block fallback loops agree with one multi-block transfer. -/

/-- A one-block device read with no failure returns the block's bytes. -/
theorem devRead_one_ok (S : Nat) (d : Dev) (b : Nat) (h : d.readFail b = none) :
    devRead S d b 1 = .ok (blockBytes S d b) := by
  simp [devRead, h]

/-- A one-block device write is a failure test plus a `writeBlock`. -/
theorem devWrite_single (S : Nat) (d : Dev) (b : Nat) (blk : List Nat) :
    devWrite S d b [blk] =
      match d.writeFail b with
      | some e => (d, some e)
      | none => (writeBlock S d b blk, none) := by
  cases h : d.writeFail b <;> simp [devWrite, h]

/-- The per-block read loop leaves the device untouched and its outcome is
that of the single multi-block read over the same block range. -/
theorem readLoop_eq (S : Nat) (st : AdapterState) (b stop : Nat) :
    (readLoop S st b stop).1.dev = st.dev ∧
    (readLoop S st b stop).2 = devRead S st.dev b (stop - b) := by
  induction st, b, stop using readLoop.induct S with
  | case1 st b stop h st1 e heq =>
    rw [readLoop, if_pos h, heq]
    simp only [bdRead, Prod.mk.injEq] at heq
    obtain ⟨heq1, heq2⟩ := heq
    obtain ⟨m, hm⟩ : ∃ m, stop - b = m + 1 := ⟨stop - b - 1, by omega⟩
    rw [hm]
    cases hq : st.dev.readFail b with
    | some e2 =>
      have he : e2 = e := by simpa [devRead, hq] using heq2
      constructor
      · rw [← heq1]
      · simp [devRead, hq, he]
    | none => simp [devRead, hq] at heq2
  | case2 st b stop h st1 bytes heq st2 e hrec ih =>
    rw [readLoop, if_pos h, heq]
    simp only []
    rw [hrec]
    rw [hrec] at ih
    simp only [bdRead, Prod.mk.injEq] at heq
    obtain ⟨heq1, heq2⟩ := heq
    have hdev1 : st1.dev = st.dev := by rw [← heq1]
    cases hq : st.dev.readFail b with
    | some e2 => simp [devRead, hq] at heq2
    | none =>
      have hbytes : bytes = blockBytes S st.dev b := by
        simpa [devRead, hq] using heq2.symm
      obtain ⟨m, hm⟩ : ∃ m, stop - b = m + 1 := ⟨stop - b - 1, by omega⟩
      have hm2 : stop - (b + 1) = m := by omega
      obtain ⟨ihdev, ihres⟩ := ih
      rw [hm2, hdev1] at ihres
      rw [hm]
      constructor
      · simpa [hdev1] using ihdev
      · simp [devRead, hq, ← ihres]
  | case3 st b stop h st1 bytes heq st2 rest hrec ih =>
    rw [readLoop, if_pos h, heq]
    simp only []
    rw [hrec]
    rw [hrec] at ih
    simp only [bdRead, Prod.mk.injEq] at heq
    obtain ⟨heq1, heq2⟩ := heq
    have hdev1 : st1.dev = st.dev := by rw [← heq1]
    cases hq : st.dev.readFail b with
    | some e2 => simp [devRead, hq] at heq2
    | none =>
      have hbytes : bytes = blockBytes S st.dev b := by
        simpa [devRead, hq] using heq2.symm
      obtain ⟨m, hm⟩ : ∃ m, stop - b = m + 1 := ⟨stop - b - 1, by omega⟩
      have hm2 : stop - (b + 1) = m := by omega
      obtain ⟨ihdev, ihres⟩ := ih
      rw [hm2, hdev1] at ihres
      rw [hm]
      constructor
      · simpa [hdev1] using ihdev
      · simp [devRead, hq, ← ihres, hbytes]
  | case4 st b stop h =>
    rw [readLoop, if_neg h]
    have : stop - b = 0 := by omega
    rw [this]
    simp [devRead]

end StorageDev

namespace StorageDev

/-- An empty middle slice is reinterpreted as no blocks. -/
theorem middleBlocks_nil (S : Nat) (data : List Nat) (h : data.length = 0) :
    middleBlocks S data = [] := by
  unfold middleBlocks
  rw [h]
  simp

/-- Reinterpreting `(n+1)*S` bytes as blocks peels off the first block. -/
theorem middleBlocks_cons (S : Nat) (hS : 0 < S) (n : Nat) (data : List Nat)
    (hlen : data.length = (n + 1) * S) :
    middleBlocks S data = data.take S :: middleBlocks S (data.drop S) := by
  unfold middleBlocks
  have h1 : data.length / S = n + 1 := by rw [hlen, Nat.mul_div_cancel _ hS]
  have h2 : (data.drop S).length = n * S := by
    rw [List.length_drop, hlen]
    have h3 : (n + 1) * S = n * S + S := by ring
    omega
  have h4 : (data.drop S).length / S = n := by rw [h2, Nat.mul_div_cancel _ hS]
  rw [h1, h4, List.range_succ_eq_map, List.map_cons, List.map_map]
  congr 1
  · simp
  · apply List.map_congr_left
    intro i hi
    simp only [Function.comp_apply]
    rw [List.drop_drop, Nat.succ_mul, Nat.add_comm (i * S) S]

/-- One adapter-level write of a single block, by cases on the failure
schedule. -/
theorem bdWrite_single_cases (S : Nat) (st : AdapterState) (b : Nat) (blk : List Nat) :
    bdWrite S st b [blk] =
      match st.dev.writeFail b with
      | some e => ({ st with log := st.log ++ [DevCall.write b 1] }, some e)
      | none => ({ st with dev := writeBlock S st.dev b blk, log := st.log ++ [DevCall.write b 1] }, none) := by
  cases hq : st.dev.writeFail b <;> simp [bdWrite, devWrite, hq]

/-- The per-block write loop produces the same device state and outcome as
the single multi-block write of the reinterpreted middle slice. -/
theorem writeLoop_eq (S : Nat) (hS : 0 < S) (st : AdapterState) (b stop : Nat)
    (data : List Nat) :
    data.length = (stop - b) * S →
    (writeLoop S st b stop data).1.dev = (devWrite S st.dev b (middleBlocks S data)).1 ∧
    (writeLoop S st b stop data).2 = (devWrite S st.dev b (middleBlocks S data)).2 := by
  induction st, b, stop, data using writeLoop.induct S with
  | case1 st b stop data h st1 e heq =>
    intro hlen
    obtain ⟨m, hm⟩ : ∃ m, stop - b = m + 1 := ⟨stop - b - 1, by omega⟩
    rw [hm] at hlen
    rw [writeLoop, if_pos h, heq]
    simp only []
    rw [middleBlocks_cons S hS m data hlen]
    rw [bdWrite_single_cases] at heq
    cases hq : st.dev.writeFail b with
    | some e2 =>
      rw [hq] at heq
      simp only [Prod.mk.injEq] at heq
      obtain ⟨heq1, heq2⟩ := heq
      simp only [devWrite, hq]
      constructor
      · rw [← heq1]
      · rw [heq2]
    | none =>
      rw [hq] at heq
      simp at heq
  | case2 st b stop data h st1 heq ih =>
    intro hlen
    obtain ⟨m, hm⟩ : ∃ m, stop - b = m + 1 := ⟨stop - b - 1, by omega⟩
    rw [hm] at hlen
    rw [writeLoop, if_pos h, heq]
    simp only []
    rw [middleBlocks_cons S hS m data hlen]
    rw [bdWrite_single_cases] at heq
    cases hq : st.dev.writeFail b with
    | some e2 =>
      rw [hq] at heq
      simp at heq
    | none =>
      rw [hq] at heq
      simp only [Prod.mk.injEq] at heq
      obtain ⟨heq1, heq2⟩ := heq
      have hdev1 : st1.dev = writeBlock S st.dev b (data.take S) := by
        rw [← heq1]
      have hlen2 : (data.drop S).length = (stop - (b + 1)) * S := by
        rw [List.length_drop, hlen]
        have h3 : (m + 1) * S = m * S + S := by ring
        have h4 : stop - (b + 1) = m := by omega
        rw [h4]
        omega
      obtain ⟨ihdev, ihres⟩ := ih hlen2
      rw [hdev1] at ihdev ihres
      simp only [devWrite, hq]
      exact ⟨ihdev, ihres⟩
  | case3 st b stop data h =>
    intro hlen
    have h0 : stop - b = 0 := by omega
    rw [h0] at hlen
    rw [writeLoop, if_neg h, middleBlocks_nil S data (by omega)]
    simp [devWrite]

end StorageDev

namespace StorageDev

/-! Phase-level facts: reads keep the device unchanged, and each phase's
outcome depends on the incoming state only through the device. -/

/-- The leading read phase does not change the device. -/
theorem readFirst_dev (S : Nat) (st : AdapterState) (fb flen : Nat) :
    (readFirst S st fb flen).1.dev = st.dev := by
  unfold readFirst
  split
  · simp only [bdRead]
    cases hr : devRead S st.dev fb 1 <;> simp [hr]
  · rfl

/-- The trailing read phase does not change the device. -/
theorem readLast_dev (S : Nat) (st : AdapterState) (eb elen : Nat) :
    (readLast S st eb elen).1.dev = st.dev := by
  unfold readLast
  split
  · simp only [bdRead]
    cases hr : devRead S st.dev eb 1 <;> simp [hr]
  · rfl

/-- The middle read phase does not change the device, on either path. -/
theorem readMiddle_dev (S : Nat) (al : Bool) (st : AdapterState) (M E mlen : Nat) :
    (readMiddle S al st M E mlen).1.dev = st.dev := by
  unfold readMiddle
  split
  · simp [bdRead]
  · exact (readLoop_eq S st M E).1

/-- Outcome of a nonempty trailing read phase, as a function of the device. -/
theorem readLast_result (S : Nat) (st : AdapterState) (eb elen : Nat) (h : 0 < elen) :
    (readLast S st eb elen).2 =
      match devRead S st.dev eb 1 with
      | .error e => .error e
      | .ok bytes => .ok (bytes.take elen) := by
  unfold readLast
  rw [if_pos h]
  simp only [bdRead]
  cases hr : devRead S st.dev eb 1 <;> simp [hr]

/-- An empty trailing read phase does nothing. -/
theorem readLast_zero (S : Nat) (st : AdapterState) (eb : Nat) :
    readLast S st eb 0 = (st, .ok []) := by
  unfold readLast
  simp

/-- The trailing read phase observes only the device of the incoming state. -/
theorem readLast_congr (S : Nat) (sta stb : AdapterState) (eb elen : Nat)
    (h : sta.dev = stb.dev) :
    (readLast S sta eb elen).1.dev = (readLast S stb eb elen).1.dev ∧
    (readLast S sta eb elen).2 = (readLast S stb eb elen).2 := by
  constructor
  · rw [readLast_dev, readLast_dev, h]
  · rcases Nat.eq_zero_or_pos elen with he | he
    · subst he
      rw [readLast_zero, readLast_zero]
    · rw [readLast_result S sta eb elen he, readLast_result S stb eb elen he, h]

/-- Device state and outcome of a nonempty trailing write phase, as a function
of the device of the incoming state. -/
theorem writeLast_spec (S : Nat) (st : AdapterState) (eb elen : Nat)
    (buf : List Nat) (h : 0 < elen) :
    (writeLast S st eb elen buf).1.dev =
      (match devRead S st.dev eb 1 with
       | .error _ => st.dev
       | .ok bytes => (devWrite S st.dev eb [buf ++ bytes.drop elen]).1) ∧
    (writeLast S st eb elen buf).2 =
      (match devRead S st.dev eb 1 with
       | .error e => some e
       | .ok bytes => (devWrite S st.dev eb [buf ++ bytes.drop elen]).2) := by
  unfold writeLast
  rw [if_pos h]
  simp only [bdRead]
  cases hr : devRead S st.dev eb 1 <;> simp [hr, bdWrite]

/-- An empty trailing write phase does nothing. -/
theorem writeLast_zero (S : Nat) (st : AdapterState) (eb : Nat) (buf : List Nat) :
    writeLast S st eb 0 buf = (st, none) := by
  unfold writeLast
  simp

/-- The trailing write phase observes only the device of the incoming state. -/
theorem writeLast_congr (S : Nat) (sta stb : AdapterState) (eb elen : Nat)
    (buf : List Nat) (h : sta.dev = stb.dev) :
    (writeLast S sta eb elen buf).1.dev = (writeLast S stb eb elen buf).1.dev ∧
    (writeLast S sta eb elen buf).2 = (writeLast S stb eb elen buf).2 := by
  rcases Nat.eq_zero_or_pos elen with he | he
  · subst he
    rw [writeLast_zero, writeLast_zero]
    exact ⟨h, rfl⟩
  · obtain ⟨ha1, ha2⟩ := writeLast_spec S sta eb elen buf he
    obtain ⟨hb1, hb2⟩ := writeLast_spec S stb eb elen buf he
    rw [ha1, ha2, hb1, hb2, h]
    exact ⟨rfl, rfl⟩

/-- On a positive block size, the two middle read paths have the same
observable effect: same device, same outcome. -/
theorem readMiddle_obs (S : Nat) (st : AdapterState) (M E mlen : Nat) (hS : 0 < S)
    (hlen : mlen = (E - M) * S) :
    (readMiddle S true st M E mlen).1.dev = (readMiddle S false st M E mlen).1.dev ∧
    (readMiddle S true st M E mlen).2 = (readMiddle S false st M E mlen).2 := by
  have ht : readMiddle S true st M E mlen = bdRead S st M (mlen / S) := by
    unfold readMiddle
    simp
  have hf : readMiddle S false st M E mlen = readLoop S st M E := by
    unfold readMiddle
    simp
  rw [ht, hf]
  have hdiv : mlen / S = E - M := by rw [hlen, Nat.mul_div_cancel _ hS]
  rw [hdiv]
  obtain ⟨hdev, hres⟩ := readLoop_eq S st M E
  constructor
  · rw [hdev]
    simp [bdRead]
  · rw [hres]
    simp [bdRead]

/-- On a positive block size, the two middle write paths have the same
observable effect: same device (also after partially failed runs), same
outcome. -/
theorem writeMiddle_obs (S : Nat) (st : AdapterState) (M E : Nat) (data : List Nat)
    (hS : 0 < S) (hlen : data.length = (E - M) * S) :
    (writeMiddle S true st M E data).1.dev = (writeMiddle S false st M E data).1.dev ∧
    (writeMiddle S true st M E data).2 = (writeMiddle S false st M E data).2 := by
  have ht : writeMiddle S true st M E data = bdWrite S st M (middleBlocks S data) := by
    unfold writeMiddle
    simp
  have hf : writeMiddle S false st M E data = writeLoop S st M E data := by
    unfold writeMiddle
    simp
  rw [ht, hf]
  obtain ⟨hdev, hres⟩ := writeLoop_eq S hS st M E data hlen
  constructor
  · rw [hdev]
    simp [bdWrite]
  · rw [hres]
    simp [bdWrite]

end StorageDev

namespace StorageDev

/-- C7: for every request and every block device of the model, servicing the
middle region by the single zero-copy multi-block call (`aligned = true`) and
by the per-block fallback loop (`aligned = false`) produce identical
observable results: the same bytes delivered to the caller on a read, the
same device state on a write, and the same success/error/panic outcome; only
the internal scratch block and the number of logged device calls differ. -/
theorem c7_fast_slow_equivalence (S : Nat) (st : AdapterState) (offset len : Nat)
    (buf : List Nat) :
    readObs (read_internal S true st offset len)
      = readObs (read_internal S false st offset len) ∧
    writeObs (write_internal S true st offset buf)
      = writeObs (write_internal S false st offset buf) := by
  by_cases hS0 : S = 0
  · subst hS0
    rw [read_internal_S_zero, read_internal_S_zero, write_internal_S_zero,
      write_internal_S_zero]
    exact ⟨rfl, rfl⟩
  have hS : 0 < S := Nat.pos_of_ne_zero hS0
  constructor
  · unfold read_internal
    simp only []
    by_cases hlt : len < splitFirstPartLen S offset
    · rw [if_pos hlt, if_pos hlt]
    · rw [if_neg hlt, if_neg hlt]
      cases hrf : readFirst S st (offset / S) (splitFirstPartLen S offset) with
      | mk st1 r1 =>
        cases r1 with
        | error e => rfl
        | ok buf1 =>
          simp only []
          by_cases hm0 : len - splitFirstPartLen S offset - (offset + len) % S = 0
          · rw [if_pos hm0, if_pos hm0]
          · rw [if_neg hm0, if_neg hm0]
            have hfL : splitFirstPartLen S offset ≤ len := by omega
            have hlen1 : len - splitFirstPartLen S offset - (offset + len) % S
                = ((offset + len) / S - splitMiddlePartBlock S offset) * S := by
              rw [splitMiddlePartBlock_eq S offset hS]
              exact split_middle_len S offset len hS hfL
            obtain ⟨hdev2, hres2⟩ := readMiddle_obs S st1 (splitMiddlePartBlock S offset)
              ((offset + len) / S)
              (len - splitFirstPartLen S offset - (offset + len) % S) hS hlen1
            cases hmt : readMiddle S true st1 (splitMiddlePartBlock S offset)
                ((offset + len) / S)
                (len - splitFirstPartLen S offset - (offset + len) % S) with
            | mk st2t r2t =>
              cases hmf : readMiddle S false st1 (splitMiddlePartBlock S offset)
                  ((offset + len) / S)
                  (len - splitFirstPartLen S offset - (offset + len) % S) with
              | mk st2f r2f =>
                rw [hmt, hmf] at hdev2 hres2
                simp only at hdev2 hres2
                subst hres2
                cases r2t with
                | error e =>
                  simp [readObs, hdev2]
                | ok buf2 =>
                  simp only []
                  obtain ⟨hld, hlr⟩ := readLast_congr S st2t st2f ((offset + len) / S)
                    ((offset + len) % S) hdev2
                  cases hl1 : readLast S st2t ((offset + len) / S) ((offset + len) % S) with
                  | mk st3t r3t =>
                    cases hl2 : readLast S st2f ((offset + len) / S) ((offset + len) % S) with
                    | mk st3f r3f =>
                      rw [hl1, hl2] at hld hlr
                      simp only at hld hlr
                      subst hlr
                      cases r3t with
                      | error e => simp [readObs, hld]
                      | ok buf3 => simp [readObs, hld]
  · unfold write_internal
    simp only []
    by_cases hlt : buf.length < splitFirstPartLen S offset
    · rw [if_pos hlt, if_pos hlt]
    · rw [if_neg hlt, if_neg hlt]
      cases hwf : writeFirst S st (offset / S) (splitFirstPartLen S offset) buf with
      | mk st1 r1 =>
        cases r1 with
        | some e => rfl
        | none =>
          simp only []
          by_cases hm0 : buf.length - splitFirstPartLen S offset
              - (offset + buf.length) % S = 0
          · rw [if_pos hm0, if_pos hm0]
          · rw [if_neg hm0, if_neg hm0]
            have hfL : splitFirstPartLen S offset ≤ buf.length := by omega
            have hlen1 : ((buf.drop (splitFirstPartLen S offset)).take
                  (buf.length - splitFirstPartLen S offset - (offset + buf.length) % S)).length
                = (((offset + buf.length) / S - splitMiddlePartBlock S offset)) * S := by
              rw [List.length_take, List.length_drop]
              have h1 := split_middle_len S offset buf.length hS hfL
              rw [splitMiddlePartBlock_eq S offset hS]
              omega
            obtain ⟨hdev2, hres2⟩ := writeMiddle_obs S st1 (splitMiddlePartBlock S offset)
              ((offset + buf.length) / S)
              ((buf.drop (splitFirstPartLen S offset)).take
                (buf.length - splitFirstPartLen S offset - (offset + buf.length) % S))
              hS hlen1
            cases hmt : writeMiddle S true st1 (splitMiddlePartBlock S offset)
                ((offset + buf.length) / S)
                ((buf.drop (splitFirstPartLen S offset)).take
                  (buf.length - splitFirstPartLen S offset - (offset + buf.length) % S)) with
            | mk st2t r2t =>
              cases hmf : writeMiddle S false st1 (splitMiddlePartBlock S offset)
                  ((offset + buf.length) / S)
                  ((buf.drop (splitFirstPartLen S offset)).take
                    (buf.length - splitFirstPartLen S offset - (offset + buf.length) % S)) with
              | mk st2f r2f =>
                rw [hmt, hmf] at hdev2 hres2
                simp only at hdev2 hres2
                subst hres2
                cases r2t with
                | some e =>
                  simp [writeObs, hdev2]
                | none =>
                  simp only []
                  obtain ⟨hld, hlr⟩ := writeLast_congr S st2t st2f
                    ((offset + buf.length) / S) ((offset + buf.length) % S)
                    (buf.drop (splitFirstPartLen S offset
                      + (buf.length - splitFirstPartLen S offset
                        - (offset + buf.length) % S))) hdev2
                  cases hl1 : writeLast S st2t ((offset + buf.length) / S)
                      ((offset + buf.length) % S)
                      (buf.drop (splitFirstPartLen S offset
                        + (buf.length - splitFirstPartLen S offset
                          - (offset + buf.length) % S))) with
                  | mk st3t r3t =>
                    cases hl2 : writeLast S st2f ((offset + buf.length) / S)
                        ((offset + buf.length) % S)
                        (buf.drop (splitFirstPartLen S offset
                          + (buf.length - splitFirstPartLen S offset
                            - (offset + buf.length) % S))) with
                    | mk st3f r3f =>
                      rw [hl1, hl2] at hld hlr
                      simp only at hld hlr
                      subst hlr
                      cases r3t with
                      | some e => simp [writeObs, hld]
                      | none => simp [writeObs, hld]

end StorageDev

namespace StorageDev

/-! Frame lemmas: which bytes a write can touch. -/

/-- A block holds `S` bytes. -/
theorem blockBytes_length (S : Nat) (d : Dev) (b : Nat) :
    (blockBytes S d b).length = S := by
  simp [blockBytes]

/-- Byte `j` of a block's byte list is the device byte. -/
theorem blockBytes_getD (S : Nat) (d : Dev) (b j : Nat) (hj : j < S) :
    (blockBytes S d b).getD j 0 = d.mem b j := by
  simp [blockBytes, List.getD_eq_getElem?_getD, List.getElem?_map,
    List.getElem?_range hj]

/-- Overwriting via `writeBlock` only changes bytes `j < S` of block `b`. -/
theorem writeBlock_mem_outside (S : Nat) (d : Dev) (b : Nat) (bytes : List Nat)
    (b2 j : Nat) (hout : b2 ≠ b ∨ S ≤ j) :
    (writeBlock S d b bytes).mem b2 j = d.mem b2 j := by
  unfold writeBlock
  simp only []
  rw [if_neg]
  omega

/-- Byte `j < S` of block `b` after `writeBlock`. -/
theorem writeBlock_mem_self (S : Nat) (d : Dev) (b : Nat) (bytes : List Nat)
    (j : Nat) (hj : j < S) :
    (writeBlock S d b bytes).mem b j = bytes.getD j 0 := by
  unfold writeBlock
  simp [hj]

/-- Overwriting via `writeBlock` leaves the failure schedules unchanged. -/
theorem writeBlock_fails (S : Nat) (d : Dev) (b : Nat) (bytes : List Nat) :
    (writeBlock S d b bytes).readFail = d.readFail ∧
    (writeBlock S d b bytes).writeFail = d.writeFail :=
  ⟨rfl, rfl⟩

/-- A multi-block device write does not touch blocks outside
`[start, start + blocks.length)` nor bytes `j ≥ S`. -/
theorem devWrite_mem_outside (S : Nat) :
    ∀ (blocks : List (List Nat)) (d : Dev) (start b2 j : Nat),
    (b2 < start ∨ start + blocks.length ≤ b2 ∨ S ≤ j) →
    ((devWrite S d start blocks).1).mem b2 j = d.mem b2 j := by
  intro blocks
  induction blocks with
  | nil =>
    intro d start b2 j hout
    rfl
  | cons blk rest ih =>
    intro d start b2 j hout
    unfold devWrite
    cases hq : d.writeFail start with
    | some e => rfl
    | none =>
      simp only [List.length_cons] at hout
      simp only []
      rw [ih (writeBlock S d start blk) (start + 1) b2 j (by omega)]
      exact writeBlock_mem_outside S d start blk b2 j (by omega)

/-- A multi-block device write leaves the failure schedules unchanged. -/
theorem devWrite_fails (S : Nat) :
    ∀ (blocks : List (List Nat)) (d : Dev) (start : Nat),
    ((devWrite S d start blocks).1).readFail = d.readFail ∧
    ((devWrite S d start blocks).1).writeFail = d.writeFail := by
  intro blocks
  induction blocks with
  | nil =>
    intro d start
    exact ⟨rfl, rfl⟩
  | cons blk rest ih =>
    intro d start
    unfold devWrite
    cases hq : d.writeFail start with
    | some e => exact ⟨rfl, rfl⟩
    | none => exact ih (writeBlock S d start blk) (start + 1)

/-- Inverting a successful one-block read. -/
theorem devRead_one_ok_inv (S : Nat) (d : Dev) (b : Nat) (bytes : List Nat)
    (h : devRead S d b 1 = .ok bytes) :
    bytes = blockBytes S d b ∧ d.readFail b = none := by
  cases hq : d.readFail b with
  | some e => simp [devRead, hq] at h
  | none =>
    refine ⟨?_, rfl⟩
    rw [devRead_one_ok S d b hq] at h
    exact (Except.ok.injEq _ _ ▸ h).symm

end StorageDev

namespace StorageDev

/-- Element access into a block's byte list. -/
theorem blockBytes_getElem? (S : Nat) (d : Dev) (b j : Nat) (hj : j < S) :
    (blockBytes S d b)[j]? = some (d.mem b j) := by
  simp [blockBytes, List.getElem?_range hj]

/-- The per-block write loop does not touch blocks outside `[b, stop)` nor
bytes `j ≥ S`. -/
theorem writeLoop_mem_outside (S : Nat) (st : AdapterState) (b stop : Nat)
    (data : List Nat) (b2 j : Nat) :
    (b2 < b ∨ stop ≤ b2 ∨ S ≤ j) →
    (writeLoop S st b stop data).1.dev.mem b2 j = st.dev.mem b2 j := by
  induction st, b, stop, data using writeLoop.induct S with
  | case1 st b stop data h st1 e heq =>
    intro hout
    rw [writeLoop, if_pos h, heq]
    simp only []
    rw [bdWrite_single_cases] at heq
    cases hq : st.dev.writeFail b with
    | some e2 =>
      rw [hq] at heq
      simp only [Prod.mk.injEq] at heq
      obtain ⟨heq1, _⟩ := heq
      rw [← heq1]
    | none =>
      rw [hq] at heq
      simp at heq
  | case2 st b stop data h st1 heq ih =>
    intro hout
    rw [writeLoop, if_pos h, heq]
    simp only []
    rw [ih (by omega)]
    rw [bdWrite_single_cases] at heq
    cases hq : st.dev.writeFail b with
    | some e2 =>
      rw [hq] at heq
      simp at heq
    | none =>
      rw [hq] at heq
      simp only [Prod.mk.injEq] at heq
      obtain ⟨heq1, _⟩ := heq
      rw [← heq1]
      exact writeBlock_mem_outside S st.dev b (data.take S) b2 j (by omega)
  | case3 st b stop data h =>
    intro hout
    rw [writeLoop, if_neg h]

/-- The middle write phase, on either path, does not touch blocks outside
`[M, E)` nor bytes `j ≥ S`. -/
theorem writeMiddle_mem_outside (S : Nat) (al : Bool) (st : AdapterState)
    (M E : Nat) (data : List Nat) (b2 j : Nat) (hS : 0 < S)
    (hlen : data.length = (E - M) * S) (hout : b2 < M ∨ E ≤ b2 ∨ S ≤ j) :
    (writeMiddle S al st M E data).1.dev.mem b2 j = st.dev.mem b2 j := by
  cases al with
  | true =>
    have ht : writeMiddle S true st M E data = bdWrite S st M (middleBlocks S data) := by
      unfold writeMiddle
      simp
    rw [ht]
    have hml : (middleBlocks S data).length = E - M := by
      unfold middleBlocks
      rw [List.length_map, List.length_range, hlen, Nat.mul_div_cancel _ hS]
    exact devWrite_mem_outside S (middleBlocks S data) st.dev M b2 j (by omega)
  | false =>
    have hf : writeMiddle S false st M E data = writeLoop S st M E data := by
      unfold writeMiddle
      simp
    rw [hf]
    exact writeLoop_mem_outside S st M E data b2 j (by omega)

/-- The leading write phase only changes the trailing `flen` bytes of block
`fb`: any byte of another block, any byte `j < S - flen` (which lies before
the request) and any byte `j ≥ S` keeps its device value. -/
theorem writeFirst_frame (S : Nat) (st : AdapterState) (fb flen : Nat)
    (buf : List Nat) (b2 j : Nat) (hfS : flen ≤ S)
    (hout : b2 ≠ fb ∨ j < S - flen ∨ S ≤ j) :
    (writeFirst S st fb flen buf).1.dev.mem b2 j = st.dev.mem b2 j := by
  unfold writeFirst
  split
  · simp only [bdRead]
    cases hr : devRead S st.dev fb 1 with
    | error e => simp [hr]
    | ok bytes =>
      obtain ⟨hb, hrf⟩ := devRead_one_ok_inv S st.dev fb bytes hr
      simp only [hr]
      show (bdWrite S _ fb [bytes.take (S - flen) ++ buf.take flen]).1.dev.mem b2 j
        = st.dev.mem b2 j
      rw [bdWrite_single_cases]
      cases hq : st.dev.writeFail fb with
      | some e => rfl
      | none =>
        simp only []
        by_cases hbb : b2 = fb
        · subst hbb
          rcases hout with h1 | h2 | h3
          · exact absurd rfl h1
          · rw [writeBlock_mem_self S st.dev b2 _ j (by omega)]
            rw [List.getD_eq_getElem?_getD]
            rw [List.getElem?_append_left (by
              rw [List.length_take, hb, blockBytes_length]
              omega)]
            rw [List.getElem?_take_of_lt h2, hb, blockBytes_getElem? S st.dev b2 j (by omega)]
            rfl
          · exact writeBlock_mem_outside S st.dev b2 _ b2 j (Or.inr h3)
        · exact writeBlock_mem_outside S st.dev fb _ b2 j (Or.inl hbb)
  · rfl

/-- The trailing write phase only changes the leading `elen` bytes of block
`eb` (when fed a buffer of exactly `elen` bytes, as the adapter does): any
byte of another block and any byte `j ≥ elen` keeps its device value. -/
theorem writeLast_frame (S : Nat) (st : AdapterState) (eb elen : Nat)
    (bufT : List Nat) (b2 j : Nat) (hbl : bufT.length = elen)
    (hout : b2 ≠ eb ∨ elen ≤ j) :
    (writeLast S st eb elen bufT).1.dev.mem b2 j = st.dev.mem b2 j := by
  unfold writeLast
  split
  · simp only [bdRead]
    cases hr : devRead S st.dev eb 1 with
    | error e => simp [hr]
    | ok bytes =>
      obtain ⟨hb, hrf⟩ := devRead_one_ok_inv S st.dev eb bytes hr
      simp only [hr]
      show (bdWrite S _ eb [bufT ++ bytes.drop elen]).1.dev.mem b2 j
        = st.dev.mem b2 j
      rw [bdWrite_single_cases]
      cases hq : st.dev.writeFail eb with
      | some e => rfl
      | none =>
        simp only []
        by_cases hbb : b2 = eb
        · subst hbb
          rcases hout with h1 | h2
          · exact absurd rfl h1
          · by_cases hjS : j < S
            · rw [writeBlock_mem_self S st.dev b2 _ j hjS]
              rw [List.getD_eq_getElem?_getD]
              rw [List.getElem?_append_right (by omega)]
              rw [hbl, hb, List.getElem?_drop]
              have hj2 : elen + (j - elen) = j := by omega
              rw [hj2, blockBytes_getElem? S st.dev b2 j hjS]
              rfl
            · exact writeBlock_mem_outside S st.dev b2 _ b2 j (Or.inr (by omega))
        · exact writeBlock_mem_outside S st.dev eb _ b2 j (Or.inl hbb)
  · rfl

end StorageDev

namespace StorageDev

/-- A byte position strictly below another is in an earlier block, or in the
same block at a smaller in-block offset. -/
theorem byte_block_lt (S p o : Nat) (h : p < o) :
    p / S < o / S ∨ (p / S = o / S ∧ p % S < o % S) := by
  have h1 : p / S ≤ o / S := Nat.div_le_div_right (Nat.le_of_lt h)
  rcases Nat.eq_or_lt_of_le h1 with he | hl
  · right
    refine ⟨he, ?_⟩
    have hp2 : p / S * S + p % S = p := Nat.div_add_mod' p S
    have ho2 : o / S * S + o % S = o := Nat.div_add_mod' o S
    rw [he] at hp2
    omega
  · left
    exact hl

/-- A byte position at or above another is in a later block, or in the same
block at an in-block offset at least as large. -/
theorem byte_block_le (S a p : Nat) (h : a ≤ p) :
    a / S < p / S ∨ (a / S = p / S ∧ a % S ≤ p % S) := by
  have h1 : a / S ≤ p / S := Nat.div_le_div_right h
  rcases Nat.eq_or_lt_of_le h1 with he | hl
  · right
    refine ⟨he, ?_⟩
    have hp2 : p / S * S + p % S = p := Nat.div_add_mod' p S
    have ha2 : a / S * S + a % S = a := Nat.div_add_mod' a S
    rw [he] at ha2
    omega
  · left
    exact hl

/-- C10: every `write_internal` that returns success leaves all device bytes
outside `[offset, offset + buf.length)` unchanged: the partial leading block
is read-modify-written so its bytes before the request keep their device
value, the partial trailing block keeps its bytes after the request, and no
block outside the request's block span is written at all. -/
theorem c10_write_frame (S : Nat) (al : Bool) (st : AdapterState) (offset : Nat)
    (buf : List Nat) (st1 : AdapterState) (hS : 0 < S)
    (h : write_internal S al st offset buf = some (st1, none))
    (p : Nat) (hp : p < offset ∨ offset + buf.length ≤ p) :
    byteAt S st1.dev p = byteAt S st.dev p := by
  unfold write_internal at h
  simp only [] at h
  by_cases hlt : buf.length < splitFirstPartLen S offset
  · rw [if_pos hlt] at h
    simp at h
  rw [if_neg hlt] at h
  cases hwf : writeFirst S st (offset / S) (splitFirstPartLen S offset) buf with
  | mk stA rA =>
    rw [hwf] at h
    cases rA with
    | some e => simp at h
    | none =>
      simp only [] at h
      by_cases hm0 : buf.length - splitFirstPartLen S offset
          - (offset + buf.length) % S = 0
      · rw [if_pos hm0] at h
        simp at h
      rw [if_neg hm0] at h
      cases hmd : writeMiddle S al stA (splitMiddlePartBlock S offset)
          ((offset + buf.length) / S)
          ((buf.drop (splitFirstPartLen S offset)).take
            (buf.length - splitFirstPartLen S offset - (offset + buf.length) % S)) with
      | mk stB rB =>
        rw [hmd] at h
        cases rB with
        | some e => simp at h
        | none =>
          simp only [] at h
          cases hwl : writeLast S stB ((offset + buf.length) / S)
              ((offset + buf.length) % S)
              (buf.drop (splitFirstPartLen S offset
                + (buf.length - splitFirstPartLen S offset
                  - (offset + buf.length) % S))) with
          | mk stC rC =>
            rw [hwl] at h
            cases rC with
            | some e => simp at h
            | none =>
              simp only [Option.some.injEq, Prod.mk.injEq, and_true] at h
              subst h
              have hfL : splitFirstPartLen S offset ≤ buf.length := by omega
              have hfS : splitFirstPartLen S offset ≤ S := splitFirstPartLen_le S offset
              have hom : offset % S < S := Nat.mod_lt _ hS
              have hfo : splitFirstPartLen S offset = S - offset % S := rfl
              have hMeq : splitMiddlePartBlock S offset = offset / S + 1 :=
                splitMiddlePartBlock_eq S offset hS
              have hME : offset / S + 1 ≤ (offset + buf.length) / S :=
                split_div_le S offset buf.length hS hfL
              have hmlen : ((buf.drop (splitFirstPartLen S offset)).take
                  (buf.length - splitFirstPartLen S offset - (offset + buf.length) % S)).length
                  = ((offset + buf.length) / S - splitMiddlePartBlock S offset) * S := by
                rw [List.length_take, List.length_drop]
                have h1 := split_middle_len S offset buf.length hS hfL
                rw [hMeq]
                omega
              have hem : (offset + buf.length) % S < S := Nat.mod_lt _ hS
              have hbl : (buf.drop (splitFirstPartLen S offset
                  + (buf.length - splitFirstPartLen S offset
                    - (offset + buf.length) % S))).length
                  = (offset + buf.length) % S := by
                rw [List.length_drop]
                have h1 := split_middle_len S offset buf.length hS hfL
                have h2 := Nat.div_add_mod' (offset + buf.length) S
                have h3 := Nat.div_add_mod' offset S
                have h4 : (offset / S + 1) * S = offset / S * S + S := by ring
                have h5 := Nat.mul_le_mul_right S hME
                omega
              have hA := writeFirst_frame S st (offset / S) (splitFirstPartLen S offset)
                buf (p / S) (p % S) hfS ?houtA
              case houtA =>
                rcases hp with hp1 | hp2
                · rcases byte_block_lt S p offset hp1 with hb | ⟨hb, hj⟩
                  · omega
                  · omega
                · rcases byte_block_le S (offset + buf.length) p hp2 with hb | ⟨hb, hj⟩
                  · omega
                  · omega
              have hB := writeMiddle_mem_outside S al stA (splitMiddlePartBlock S offset)
                ((offset + buf.length) / S)
                ((buf.drop (splitFirstPartLen S offset)).take
                  (buf.length - splitFirstPartLen S offset - (offset + buf.length) % S))
                (p / S) (p % S) hS hmlen ?houtB
              case houtB =>
                rcases hp with hp1 | hp2
                · rcases byte_block_lt S p offset hp1 with hb | ⟨hb, hj⟩
                  · omega
                  · omega
                · rcases byte_block_le S (offset + buf.length) p hp2 with hb | ⟨hb, hj⟩
                  · omega
                  · omega
              have hC := writeLast_frame S stB ((offset + buf.length) / S)
                ((offset + buf.length) % S)
                (buf.drop (splitFirstPartLen S offset
                  + (buf.length - splitFirstPartLen S offset
                    - (offset + buf.length) % S))) (p / S) (p % S) hbl ?houtC
              case houtC =>
                rcases hp with hp1 | hp2
                · rcases byte_block_lt S p offset hp1 with hb | ⟨hb, hj⟩
                  · omega
                  · omega
                · rcases byte_block_le S (offset + buf.length) p hp2 with hb | ⟨hb, hj⟩
                  · omega
                  · omega
              rw [hwf] at hA
              rw [hmd] at hB
              rw [hwl] at hC
              simp only at hA hB hC
              unfold byteAt
              rw [hC, hB, hA]

/-- Concrete device for the C10 witness: byte `j` of block `b` is `10*b+j`. -/
def c10WitState : AdapterState := newAdapter 2 (pureDev (fun b j => 10 * b + j))

/-- Adapter state after the witness write of 3 bytes at offset 1. -/
def c10WitFinal : AdapterState :=
  match write_internal 2 true c10WitState 1 [7, 8, 9] with
  | some (st1, _) => st1
  | none => c10WitState

/-- Witness for C10: a successful write of `[7,8,9]` at offset 1 on a 2-byte
block device leaves byte 0 (before the range) and byte 4 (after it)
unchanged. -/
theorem c10_write_frame_witness :
    byteAt 2 c10WitFinal.dev 0 = byteAt 2 c10WitState.dev 0 ∧
    byteAt 2 c10WitFinal.dev 4 = byteAt 2 c10WitState.dev 4 :=
  ⟨c10_write_frame 2 true c10WitState 1 [7, 8, 9] c10WitFinal (by decide) (by rfl) 0
      (by decide),
    c10_write_frame 2 true c10WitState 1 [7, 8, 9] c10WitFinal (by decide) (by rfl) 4
      (by decide)⟩

end StorageDev

namespace StorageDev

/-! Classification of device transfers by the failure schedule, towards the
abort-on-first-error property. -/

/-- Predicate `callFails` only looks at the failure schedules of the device. -/
theorem callFails_congr (d d2 : Dev) (h1 : d2.readFail = d.readFail)
    (h2 : d2.writeFail = d.writeFail) (c : DevCall) :
    callFails d2 c = callFails d c := by
  cases c <;> simp [callFails, h1, h2]

/-- A multi-block read errors only if some block in its range is failing. -/
theorem devRead_error_fails (S : Nat) :
    ∀ (n : Nat) (d : Dev) (s : Nat) (e : BlockDeviceError),
    devRead S d s n = .error e → callRangeFails d.readFail s n = true := by
  intro n
  induction n with
  | zero =>
    intro d s e h
    simp [devRead] at h
  | succ k ih =>
    intro d s e h
    unfold callRangeFails
    cases hq : d.readFail s with
    | some e2 => simp [hq]
    | none =>
      simp only [devRead, hq] at h
      cases hr : devRead S d (s + 1) k with
      | error e2 =>
        rw [hr] at h
        simp [hq, ih d (s + 1) e2 hr]
      | ok rest =>
        rw [hr] at h
        simp at h

/-- A successful multi-block read means no block in its range is failing. -/
theorem devRead_ok_not_fails (S : Nat) :
    ∀ (n : Nat) (d : Dev) (s : Nat) (bs : List Nat),
    devRead S d s n = .ok bs → callRangeFails d.readFail s n = false := by
  intro n
  induction n with
  | zero =>
    intro d s bs h
    rfl
  | succ k ih =>
    intro d s bs h
    unfold callRangeFails
    cases hq : d.readFail s with
    | some e2 => simp [devRead, hq] at h
    | none =>
      simp only [devRead, hq] at h
      cases hr : devRead S d (s + 1) k with
      | error e2 =>
        rw [hr] at h
        simp at h
      | ok rest =>
        simp [hq, ih d (s + 1) rest hr]

/-- A multi-block write errors only if some block in its range is failing. -/
theorem devWrite_some_fails (S : Nat) :
    ∀ (blocks : List (List Nat)) (d : Dev) (s : Nat) (e : BlockDeviceError),
    (devWrite S d s blocks).2 = some e →
    callRangeFails d.writeFail s blocks.length = true := by
  intro blocks
  induction blocks with
  | nil =>
    intro d s e h
    simp [devWrite] at h
  | cons blk rest ih =>
    intro d s e h
    rw [List.length_cons]
    unfold callRangeFails
    cases hq : d.writeFail s with
    | some e2 => simp [hq]
    | none =>
      simp only [devWrite, hq] at h
      have := ih (writeBlock S d s blk) (s + 1) e h
      rw [(writeBlock_fails S d s blk).2] at this
      simp [hq, this]

/-- A successful multi-block write means no block in its range is failing. -/
theorem devWrite_none_not_fails (S : Nat) :
    ∀ (blocks : List (List Nat)) (d : Dev) (s : Nat),
    (devWrite S d s blocks).2 = none →
    callRangeFails d.writeFail s blocks.length = false := by
  intro blocks
  induction blocks with
  | nil =>
    intro d s h
    rfl
  | cons blk rest ih =>
    intro d s h
    rw [List.length_cons]
    unfold callRangeFails
    cases hq : d.writeFail s with
    | some e2 => simp [devWrite, hq] at h
    | none =>
      simp only [devWrite, hq] at h
      have := ih (writeBlock S d s blk) (s + 1) h
      rw [(writeBlock_fails S d s blk).2] at this
      simp [hq, this]

/-- Predicate `AllOk` is closed under concatenation. -/
theorem AllOk_append (d : Dev) (l1 l2 : List DevCall) (h1 : AllOk d l1)
    (h2 : AllOk d l2) : AllOk d (l1 ++ l2) := by
  intro c hc
  rcases List.mem_append.mp hc with hc1 | hc2
  · exact h1 c hc1
  · exact h2 c hc2

/-- Successful calls followed by an aborted trace form an aborted trace. -/
theorem EndsFail_append (d : Dev) (l1 l2 : List DevCall) (h1 : AllOk d l1)
    (h2 : EndsFail d l2) : EndsFail d (l1 ++ l2) := by
  obtain ⟨pre, c, hl2, hpre, hc⟩ := h2
  exact ⟨l1 ++ pre, c, by rw [hl2, List.append_assoc], AllOk_append d l1 pre h1 hpre, hc⟩

/-- Predicate `AllOk` holds of a one-call trace whose call succeeds. -/
theorem AllOk_single (d : Dev) (c : DevCall) (h : callFails d c = false) :
    AllOk d [c] := by
  intro c2 hc2
  rw [List.mem_singleton.mp hc2]
  exact h

/-- Predicate `EndsFail` holds of a one-call trace whose call fails. -/
theorem EndsFail_single (d : Dev) (c : DevCall) (h : callFails d c = true) :
    EndsFail d [c] :=
  ⟨[], c, rfl, by intro c2 hc2; simp at hc2, h⟩

end StorageDev

namespace StorageDev

/-! Call traces of the read phases. -/

/-- Trace of the leading read phase: one successful or one failing call. -/
theorem readFirst_calls (S : Nat) (st : AdapterState) (fb flen : Nat) :
    ∃ delta, (readFirst S st fb flen).1.log = st.log ++ delta ∧
      (match (readFirst S st fb flen).2 with
       | .ok _ => AllOk st.dev delta
       | .error _ => EndsFail st.dev delta) := by
  unfold readFirst
  split
  · simp only [bdRead]
    cases hr : devRead S st.dev fb 1 with
    | error e =>
      simp only [hr]
      refine ⟨[DevCall.read fb 1], by simp, ?_⟩
      exact EndsFail_single _ _ (by
        simp only [callFails]
        exact devRead_error_fails S 1 st.dev fb e hr)
    | ok bytes =>
      simp only [hr]
      refine ⟨[DevCall.read fb 1], by simp, ?_⟩
      exact AllOk_single _ _ (by
        simp only [callFails]
        exact devRead_ok_not_fails S 1 st.dev fb bytes hr)
  · refine ⟨[], by simp, ?_⟩
    intro c hc
    simp at hc

/-- Trace of the trailing read phase: one successful or one failing call. -/
theorem readLast_calls (S : Nat) (st : AdapterState) (eb elen : Nat) :
    ∃ delta, (readLast S st eb elen).1.log = st.log ++ delta ∧
      (match (readLast S st eb elen).2 with
       | .ok _ => AllOk st.dev delta
       | .error _ => EndsFail st.dev delta) := by
  unfold readLast
  split
  · simp only [bdRead]
    cases hr : devRead S st.dev eb 1 with
    | error e =>
      simp only [hr]
      refine ⟨[DevCall.read eb 1], by simp, ?_⟩
      exact EndsFail_single _ _ (by
        simp only [callFails]
        exact devRead_error_fails S 1 st.dev eb e hr)
    | ok bytes =>
      simp only [hr]
      refine ⟨[DevCall.read eb 1], by simp, ?_⟩
      exact AllOk_single _ _ (by
        simp only [callFails]
        exact devRead_ok_not_fails S 1 st.dev eb bytes hr)
  · refine ⟨[], by simp, ?_⟩
    intro c hc
    simp at hc

/-- Trace of the per-block read loop: successful calls, aborted at the first
failing block. -/
theorem readLoop_calls (S : Nat) (st : AdapterState) (b stop : Nat) :
    ∃ delta, (readLoop S st b stop).1.log = st.log ++ delta ∧
      (match (readLoop S st b stop).2 with
       | .ok _ => AllOk st.dev delta
       | .error _ => EndsFail st.dev delta) := by
  induction st, b, stop using readLoop.induct S with
  | case1 st b stop h st1 e heq =>
    rw [readLoop, if_pos h, heq]
    simp only [bdRead, Prod.mk.injEq] at heq
    obtain ⟨heq1, heq2⟩ := heq
    refine ⟨[DevCall.read b 1], ?_, ?_⟩
    · rw [← heq1]
    · exact EndsFail_single _ _ (by
        simp only [callFails]
        exact devRead_error_fails S 1 st.dev b e heq2)
  | case2 st b stop h st1 bytes heq st2 e hrec ih =>
    rw [readLoop, if_pos h, heq]
    simp only []
    rw [hrec]
    rw [hrec] at ih
    obtain ⟨delta, hlog, hcls⟩ := ih
    simp only [] at hlog hcls
    simp only [bdRead, Prod.mk.injEq] at heq
    obtain ⟨heq1, heq2⟩ := heq
    have hd : st1.dev = st.dev := by rw [← heq1]
    have hl : st1.log = st.log ++ [DevCall.read b 1] := by rw [← heq1]
    refine ⟨DevCall.read b 1 :: delta, ?_, ?_⟩
    · rw [hlog, hl]
      simp
    · have hcall : callFails st.dev (DevCall.read b 1) = false := by
        simp only [callFails]
        exact devRead_ok_not_fails S 1 st.dev b bytes heq2
      rw [hd] at hcls
      have := EndsFail_append st.dev [DevCall.read b 1] delta
        (AllOk_single _ _ hcall) hcls
      simpa using this
  | case3 st b stop h st1 bytes heq st2 rest hrec ih =>
    rw [readLoop, if_pos h, heq]
    simp only []
    rw [hrec]
    rw [hrec] at ih
    obtain ⟨delta, hlog, hcls⟩ := ih
    simp only [] at hlog hcls
    simp only [bdRead, Prod.mk.injEq] at heq
    obtain ⟨heq1, heq2⟩ := heq
    have hd : st1.dev = st.dev := by rw [← heq1]
    have hl : st1.log = st.log ++ [DevCall.read b 1] := by rw [← heq1]
    refine ⟨DevCall.read b 1 :: delta, ?_, ?_⟩
    · rw [hlog, hl]
      simp
    · have hcall : callFails st.dev (DevCall.read b 1) = false := by
        simp only [callFails]
        exact devRead_ok_not_fails S 1 st.dev b bytes heq2
      rw [hd] at hcls
      have := AllOk_append st.dev [DevCall.read b 1] delta
        (AllOk_single _ _ hcall) hcls
      simpa using this
  | case4 st b stop h =>
    rw [readLoop, if_neg h]
    refine ⟨[], by simp, ?_⟩
    intro c hc
    simp at hc

/-- Trace of the middle read phase, on either path. -/
theorem readMiddle_calls (S : Nat) (al : Bool) (st : AdapterState)
    (M E mlen : Nat) :
    ∃ delta, (readMiddle S al st M E mlen).1.log = st.log ++ delta ∧
      (match (readMiddle S al st M E mlen).2 with
       | .ok _ => AllOk st.dev delta
       | .error _ => EndsFail st.dev delta) := by
  cases al with
  | true =>
    have ht : readMiddle S true st M E mlen = bdRead S st M (mlen / S) := by
      unfold readMiddle
      simp
    rw [ht]
    simp only [bdRead]
    cases hr : devRead S st.dev M (mlen / S) with
    | error e =>
      refine ⟨[DevCall.read M (mlen / S)], by simp, ?_⟩
      exact EndsFail_single _ _ (by
        simp only [callFails]
        exact devRead_error_fails S (mlen / S) st.dev M e hr)
    | ok bytes =>
      refine ⟨[DevCall.read M (mlen / S)], by simp, ?_⟩
      exact AllOk_single _ _ (by
        simp only [callFails]
        exact devRead_ok_not_fails S (mlen / S) st.dev M bytes hr)
  | false =>
    have hf : readMiddle S false st M E mlen = readLoop S st M E := by
      unfold readMiddle
      simp
    rw [hf]
    exact readLoop_calls S st M E

end StorageDev

namespace StorageDev

/-! Call traces of the write phases. -/

/-- One failing write call has a failing one-block range. -/
theorem callFails_write_one_some (d : Dev) (b : Nat) (e : BlockDeviceError)
    (hq : d.writeFail b = some e) : callFails d (DevCall.write b 1) = true := by
  simp [callFails, callRangeFails, hq]

/-- One successful write call has a clean one-block range. -/
theorem callFails_write_one_none (d : Dev) (b : Nat)
    (hq : d.writeFail b = none) : callFails d (DevCall.write b 1) = false := by
  simp [callFails, callRangeFails, hq]

/-- Trace and schedule preservation of the leading write phase. -/
theorem writeFirst_calls (S : Nat) (st : AdapterState) (fb flen : Nat)
    (buf : List Nat) :
    ∃ delta, (writeFirst S st fb flen buf).1.log = st.log ++ delta ∧
      (writeFirst S st fb flen buf).1.dev.readFail = st.dev.readFail ∧
      (writeFirst S st fb flen buf).1.dev.writeFail = st.dev.writeFail ∧
      (match (writeFirst S st fb flen buf).2 with
       | none => AllOk st.dev delta
       | some _ => EndsFail st.dev delta) := by
  unfold writeFirst
  split
  · simp only [bdRead]
    cases hr : devRead S st.dev fb 1 with
    | error e =>
      simp only [hr]
      refine ⟨[DevCall.read fb 1], ?_, ?_, ?_, ?_⟩
      · simp
      · trivial
      · trivial
      exact EndsFail_single _ _ (by
        simp only [callFails]
        exact devRead_error_fails S 1 st.dev fb e hr)
    | ok bytes =>
      simp only [hr]
      rw [bdWrite_single_cases]
      cases hq : st.dev.writeFail fb with
      | some e =>
        refine ⟨[DevCall.read fb 1, DevCall.write fb 1], ?_, ?_, ?_, ?_⟩
        case _ => simp
        case _ => trivial
        case _ => trivial
        have h1 : AllOk st.dev [DevCall.read fb 1] :=
          AllOk_single _ _ (by
            simp only [callFails]
            exact devRead_ok_not_fails S 1 st.dev fb bytes hr)
        have h2 : EndsFail st.dev [DevCall.write fb 1] :=
          EndsFail_single _ _ (callFails_write_one_some st.dev fb e hq)
        simpa using EndsFail_append st.dev [DevCall.read fb 1] [DevCall.write fb 1] h1 h2
      | none =>
        refine ⟨[DevCall.read fb 1, DevCall.write fb 1], ?_, ?_, ?_, ?_⟩
        case _ => simp
        case _ => trivial
        case _ => trivial
        have h1 : AllOk st.dev [DevCall.read fb 1] :=
          AllOk_single _ _ (by
            simp only [callFails]
            exact devRead_ok_not_fails S 1 st.dev fb bytes hr)
        have h2 : AllOk st.dev [DevCall.write fb 1] :=
          AllOk_single _ _ (callFails_write_one_none st.dev fb hq)
        simpa using AllOk_append st.dev [DevCall.read fb 1] [DevCall.write fb 1] h1 h2
  · refine ⟨[], ?_, ?_, ?_, ?_⟩
    · simp
    · rfl
    · rfl
    intro c hc
    simp at hc

/-- Trace and schedule preservation of the trailing write phase. -/
theorem writeLast_calls (S : Nat) (st : AdapterState) (eb elen : Nat)
    (bufT : List Nat) :
    ∃ delta, (writeLast S st eb elen bufT).1.log = st.log ++ delta ∧
      (writeLast S st eb elen bufT).1.dev.readFail = st.dev.readFail ∧
      (writeLast S st eb elen bufT).1.dev.writeFail = st.dev.writeFail ∧
      (match (writeLast S st eb elen bufT).2 with
       | none => AllOk st.dev delta
       | some _ => EndsFail st.dev delta) := by
  unfold writeLast
  split
  · simp only [bdRead]
    cases hr : devRead S st.dev eb 1 with
    | error e =>
      simp only [hr]
      refine ⟨[DevCall.read eb 1], ?_, ?_, ?_, ?_⟩
      · simp
      · trivial
      · trivial
      exact EndsFail_single _ _ (by
        simp only [callFails]
        exact devRead_error_fails S 1 st.dev eb e hr)
    | ok bytes =>
      simp only [hr]
      rw [bdWrite_single_cases]
      cases hq : st.dev.writeFail eb with
      | some e =>
        refine ⟨[DevCall.read eb 1, DevCall.write eb 1], ?_, ?_, ?_, ?_⟩
        case _ => simp
        case _ => trivial
        case _ => trivial
        have h1 : AllOk st.dev [DevCall.read eb 1] :=
          AllOk_single _ _ (by
            simp only [callFails]
            exact devRead_ok_not_fails S 1 st.dev eb bytes hr)
        have h2 : EndsFail st.dev [DevCall.write eb 1] :=
          EndsFail_single _ _ (callFails_write_one_some st.dev eb e hq)
        simpa using EndsFail_append st.dev [DevCall.read eb 1] [DevCall.write eb 1] h1 h2
      | none =>
        refine ⟨[DevCall.read eb 1, DevCall.write eb 1], ?_, ?_, ?_, ?_⟩
        case _ => simp
        case _ => trivial
        case _ => trivial
        have h1 : AllOk st.dev [DevCall.read eb 1] :=
          AllOk_single _ _ (by
            simp only [callFails]
            exact devRead_ok_not_fails S 1 st.dev eb bytes hr)
        have h2 : AllOk st.dev [DevCall.write eb 1] :=
          AllOk_single _ _ (callFails_write_one_none st.dev eb hq)
        simpa using AllOk_append st.dev [DevCall.read eb 1] [DevCall.write eb 1] h1 h2
  · refine ⟨[], ?_, ?_, ?_, ?_⟩
    · simp
    · rfl
    · rfl
    intro c hc
    simp at hc

/-- Trace and schedule preservation of the per-block write loop. -/
theorem writeLoop_calls (S : Nat) (st : AdapterState) (b stop : Nat)
    (data : List Nat) :
    ∃ delta, (writeLoop S st b stop data).1.log = st.log ++ delta ∧
      (writeLoop S st b stop data).1.dev.readFail = st.dev.readFail ∧
      (writeLoop S st b stop data).1.dev.writeFail = st.dev.writeFail ∧
      (match (writeLoop S st b stop data).2 with
       | none => AllOk st.dev delta
       | some _ => EndsFail st.dev delta) := by
  induction st, b, stop, data using writeLoop.induct S with
  | case1 st b stop data h st1 e heq =>
    rw [writeLoop, if_pos h, heq]
    simp only []
    rw [bdWrite_single_cases] at heq
    cases hq : st.dev.writeFail b with
    | some e2 =>
      rw [hq] at heq
      simp only [Prod.mk.injEq] at heq
      obtain ⟨heq1, _⟩ := heq
      refine ⟨[DevCall.write b 1], ?_, ?_, ?_, ?_⟩
      · rw [← heq1]
      · rw [← heq1]
      · rw [← heq1]
      · exact EndsFail_single _ _ (callFails_write_one_some st.dev b e2 hq)
    | none =>
      rw [hq] at heq
      simp at heq
  | case2 st b stop data h st1 heq ih =>
    rw [writeLoop, if_pos h, heq]
    simp only []
    obtain ⟨delta, hlog, hrf, hwf, hcls⟩ := ih
    rw [bdWrite_single_cases] at heq
    cases hq : st.dev.writeFail b with
    | some e2 =>
      rw [hq] at heq
      simp at heq
    | none =>
      rw [hq] at heq
      simp only [Prod.mk.injEq] at heq
      obtain ⟨heq1, _⟩ := heq
      have hd1 : st1.dev = writeBlock S st.dev b (data.take S) := by rw [← heq1]
      have hl1 : st1.log = st.log ++ [DevCall.write b 1] := by rw [← heq1]
      have hrf1 : st1.dev.readFail = st.dev.readFail := by
        rw [hd1]
        exact (writeBlock_fails S st.dev b (data.take S)).1
      have hwf1 : st1.dev.writeFail = st.dev.writeFail := by
        rw [hd1]
        exact (writeBlock_fails S st.dev b (data.take S)).2
      refine ⟨DevCall.write b 1 :: delta, ?_, ?_, ?_, ?_⟩
      · rw [hlog, hl1]
        simp
      · rw [hrf, hrf1]
      · rw [hwf, hwf1]
      · have hcg : ∀ c, callFails st1.dev c = callFails st.dev c :=
          callFails_congr st.dev st1.dev hrf1 hwf1
        have hcall : callFails st.dev (DevCall.write b 1) = false :=
          callFails_write_one_none st.dev b hq
        cases hres : (writeLoop S st1 (b + 1) stop (data.drop S)).2 with
        | none =>
          rw [hres] at hcls
          simp only [] at hcls
          have hok : AllOk st.dev delta := by
            intro c hc
            rw [← hcg c]
            exact hcls c hc
          simpa using AllOk_append st.dev [DevCall.write b 1] delta
            (AllOk_single _ _ hcall) hok
        | some e3 =>
          rw [hres] at hcls
          simp only [] at hcls
          have hef : EndsFail st.dev delta := by
            obtain ⟨pre, c, hsplit, hpre, hc⟩ := hcls
            exact ⟨pre, c, hsplit, fun c2 hc2 => by rw [← hcg c2]; exact hpre c2 hc2,
              by rw [← hcg c]; exact hc⟩
          simpa using EndsFail_append st.dev [DevCall.write b 1] delta
            (AllOk_single _ _ hcall) hef
  | case3 st b stop data h =>
    rw [writeLoop, if_neg h]
    refine ⟨[], ?_, ?_, ?_, ?_⟩
    · simp
    · rfl
    · rfl
    intro c hc
    simp at hc

/-- Trace and schedule preservation of the middle write phase. -/
theorem writeMiddle_calls (S : Nat) (al : Bool) (st : AdapterState) (M E : Nat)
    (data : List Nat) :
    ∃ delta, (writeMiddle S al st M E data).1.log = st.log ++ delta ∧
      (writeMiddle S al st M E data).1.dev.readFail = st.dev.readFail ∧
      (writeMiddle S al st M E data).1.dev.writeFail = st.dev.writeFail ∧
      (match (writeMiddle S al st M E data).2 with
       | none => AllOk st.dev delta
       | some _ => EndsFail st.dev delta) := by
  cases al with
  | true =>
    have ht : writeMiddle S true st M E data = bdWrite S st M (middleBlocks S data) := by
      unfold writeMiddle
      simp
    rw [ht]
    simp only [bdWrite]
    refine ⟨[DevCall.write M (middleBlocks S data).length], by simp, ?_, ?_, ?_⟩
    · exact (devWrite_fails S (middleBlocks S data) st.dev M).1
    · exact (devWrite_fails S (middleBlocks S data) st.dev M).2
    · cases hq : (devWrite S st.dev M (middleBlocks S data)).2 with
      | some e =>
        exact EndsFail_single _ _ (by
          simp only [callFails]
          exact devWrite_some_fails S (middleBlocks S data) st.dev M e hq)
      | none =>
        exact AllOk_single _ _ (by
          simp only [callFails]
          exact devWrite_none_not_fails S (middleBlocks S data) st.dev M hq)
  | false =>
    have hf : writeMiddle S false st M E data = writeLoop S st M E data := by
      unfold writeMiddle
      simp
    rw [hf]
    exact writeLoop_calls S st M E data

end StorageDev

namespace StorageDev

/-- Transport `AllOk` along equal failure schedules. -/
theorem AllOk_congr (d d2 : Dev) (h1 : d2.readFail = d.readFail)
    (h2 : d2.writeFail = d.writeFail) (l : List DevCall) (h : AllOk d2 l) :
    AllOk d l := by
  intro c hc
  rw [← callFails_congr d d2 h1 h2 c]
  exact h c hc

/-- Transport `EndsFail` along equal failure schedules. -/
theorem EndsFail_congr (d d2 : Dev) (h1 : d2.readFail = d.readFail)
    (h2 : d2.writeFail = d.writeFail) (l : List DevCall) (h : EndsFail d2 l) :
    EndsFail d l := by
  obtain ⟨pre, c, hs, hp, hc⟩ := h
  refine ⟨pre, c, hs, AllOk_congr d d2 h1 h2 pre hp, ?_⟩
  rw [← callFails_congr d d2 h1 h2 c]
  exact hc

/-- A failing `read_internal` leaves a trace of successful calls followed by
exactly one failing call appended to the incoming log. -/
theorem read_internal_error_calls (S : Nat) (al : Bool) (st : AdapterState)
    (offset len : Nat) (st1 : AdapterState) (e : BlockDeviceError)
    (h : read_internal S al st offset len = some (st1, .error e)) :
    ∃ delta, st1.log = st.log ++ delta ∧ EndsFail st.dev delta := by
  unfold read_internal at h
  simp only [] at h
  by_cases hlt : len < splitFirstPartLen S offset
  · rw [if_pos hlt] at h
    simp at h
  rw [if_neg hlt] at h
  obtain ⟨d1, hlog1, hcls1⟩ := readFirst_calls S st (offset / S) (splitFirstPartLen S offset)
  have hdev1 := readFirst_dev S st (offset / S) (splitFirstPartLen S offset)
  cases hrf : readFirst S st (offset / S) (splitFirstPartLen S offset) with
  | mk stA rA =>
    rw [hrf] at h hlog1 hcls1 hdev1
    simp only [] at hlog1 hcls1 hdev1
    cases rA with
    | error e1 =>
      simp only [Option.some.injEq, Prod.mk.injEq, Except.error.injEq] at h
      obtain ⟨hA, hE⟩ := h
      subst hA
      exact ⟨d1, hlog1, hcls1⟩
    | ok buf1 =>
      simp only [] at h
      by_cases hm0 : len - splitFirstPartLen S offset - (offset + len) % S = 0
      · rw [if_pos hm0] at h
        simp at h
      rw [if_neg hm0] at h
      obtain ⟨d2, hlog2, hcls2⟩ := readMiddle_calls S al stA (splitMiddlePartBlock S offset)
        ((offset + len) / S) (len - splitFirstPartLen S offset - (offset + len) % S)
      have hdev2 := readMiddle_dev S al stA (splitMiddlePartBlock S offset)
        ((offset + len) / S) (len - splitFirstPartLen S offset - (offset + len) % S)
      cases hmd : readMiddle S al stA (splitMiddlePartBlock S offset)
          ((offset + len) / S)
          (len - splitFirstPartLen S offset - (offset + len) % S) with
      | mk stB rB =>
        rw [hmd] at h hlog2 hcls2 hdev2
        simp only [] at hlog2 hcls2 hdev2
        cases rB with
        | error e2 =>
          simp only [Option.some.injEq, Prod.mk.injEq, Except.error.injEq] at h
          obtain ⟨hB, hE⟩ := h
          subst hB
          refine ⟨d1 ++ d2, ?_, ?_⟩
          · rw [hlog2, hlog1, List.append_assoc]
          · rw [hdev1] at hcls2
            exact EndsFail_append st.dev d1 d2 hcls1 hcls2
        | ok buf2 =>
          simp only [] at h
          obtain ⟨d3, hlog3, hcls3⟩ := readLast_calls S stB ((offset + len) / S)
            ((offset + len) % S)
          cases hrl : readLast S stB ((offset + len) / S) ((offset + len) % S) with
          | mk stC rC =>
            rw [hrl] at h hlog3 hcls3
            simp only [] at hlog3 hcls3
            cases rC with
            | error e3 =>
              simp only [Option.some.injEq, Prod.mk.injEq, Except.error.injEq] at h
              obtain ⟨hC, hE⟩ := h
              subst hC
              refine ⟨d1 ++ (d2 ++ d3), ?_, ?_⟩
              · rw [hlog3, hlog2, hlog1]
                simp [List.append_assoc]
              · rw [hdev2, hdev1] at hcls3
                rw [hdev1] at hcls2
                exact EndsFail_append st.dev d1 (d2 ++ d3) hcls1
                  (EndsFail_append st.dev d2 d3 hcls2 hcls3)
            | ok buf3 => simp at h

/-- A failing `write_internal` leaves a trace of successful calls followed by
exactly one failing call appended to the incoming log. -/
theorem write_internal_error_calls (S : Nat) (al : Bool) (st : AdapterState)
    (offset : Nat) (buf : List Nat) (st1 : AdapterState) (e : BlockDeviceError)
    (h : write_internal S al st offset buf = some (st1, some e)) :
    ∃ delta, st1.log = st.log ++ delta ∧ EndsFail st.dev delta := by
  unfold write_internal at h
  simp only [] at h
  by_cases hlt : buf.length < splitFirstPartLen S offset
  · rw [if_pos hlt] at h
    simp at h
  rw [if_neg hlt] at h
  obtain ⟨d1, hlog1, hrf1, hwf1, hcls1⟩ := writeFirst_calls S st (offset / S)
    (splitFirstPartLen S offset) buf
  cases hwf : writeFirst S st (offset / S) (splitFirstPartLen S offset) buf with
  | mk stA rA =>
    rw [hwf] at h hlog1 hrf1 hwf1 hcls1
    simp only [] at hlog1 hrf1 hwf1 hcls1
    cases rA with
    | some e1 =>
      simp only [Option.some.injEq, Prod.mk.injEq] at h
      obtain ⟨hA, hE⟩ := h
      subst hA
      exact ⟨d1, hlog1, hcls1⟩
    | none =>
      simp only [] at h
      by_cases hm0 : buf.length - splitFirstPartLen S offset
          - (offset + buf.length) % S = 0
      · rw [if_pos hm0] at h
        simp at h
      rw [if_neg hm0] at h
      obtain ⟨d2, hlog2, hrf2, hwf2, hcls2⟩ := writeMiddle_calls S al stA
        (splitMiddlePartBlock S offset) ((offset + buf.length) / S)
        ((buf.drop (splitFirstPartLen S offset)).take
          (buf.length - splitFirstPartLen S offset - (offset + buf.length) % S))
      cases hmd : writeMiddle S al stA (splitMiddlePartBlock S offset)
          ((offset + buf.length) / S)
          ((buf.drop (splitFirstPartLen S offset)).take
            (buf.length - splitFirstPartLen S offset
              - (offset + buf.length) % S)) with
      | mk stB rB =>
        rw [hmd] at h hlog2 hrf2 hwf2 hcls2
        simp only [] at hlog2 hrf2 hwf2 hcls2
        cases rB with
        | some e2 =>
          simp only [Option.some.injEq, Prod.mk.injEq] at h
          obtain ⟨hB, hE⟩ := h
          subst hB
          refine ⟨d1 ++ d2, ?_, ?_⟩
          · rw [hlog2, hlog1, List.append_assoc]
          · exact EndsFail_append st.dev d1 d2 hcls1
              (EndsFail_congr st.dev stA.dev hrf1 hwf1 d2 hcls2)
        | none =>
          simp only [] at h
          obtain ⟨d3, hlog3, hrf3, hwf3, hcls3⟩ := writeLast_calls S stB
            ((offset + buf.length) / S) ((offset + buf.length) % S)
            (buf.drop (splitFirstPartLen S offset
              + (buf.length - splitFirstPartLen S offset
                - (offset + buf.length) % S)))
          cases hwl : writeLast S stB ((offset + buf.length) / S)
              ((offset + buf.length) % S)
              (buf.drop (splitFirstPartLen S offset
                + (buf.length - splitFirstPartLen S offset
                  - (offset + buf.length) % S))) with
          | mk stC rC =>
            rw [hwl] at h hlog3 hrf3 hwf3 hcls3
            simp only [] at hlog3 hrf3 hwf3 hcls3
            cases rC with
            | some e3 =>
              simp only [Option.some.injEq, Prod.mk.injEq] at h
              obtain ⟨hC, hE⟩ := h
              subst hC
              refine ⟨d1 ++ (d2 ++ d3), ?_, ?_⟩
              · rw [hlog3, hlog2, hlog1]
                simp [List.append_assoc]
              · exact EndsFail_append st.dev d1 (d2 ++ d3) hcls1
                  (EndsFail_append st.dev d2 d3
                    (AllOk_congr st.dev stA.dev hrf1 hwf1 d2 hcls2)
                    (EndsFail_congr st.dev stB.dev (by rw [hrf2, hrf1])
                      (by rw [hwf2, hwf1]) d3 hcls3))
            | none => simp at h

end StorageDev

namespace StorageDev

/-- C8: if any sub-operation on the underlying block device fails during a
`StorageBlockDevice` read or write, the whole operation aborts immediately —
the failing call is the last device call issued, every earlier call was
successful — and the returned `IoError` carries the original operation kind
(`Read` for a read, `Write` for a write), the requested byte offset, the
requested byte length, and `Some` of the nested block-level error. -/
theorem c8_error_wrapping_abort (S : Nat) (al : Bool) (st : AdapterState)
    (offset len : Nat) (buf : List Nat) :
    (∀ st1 io, storageRead S al st offset len = some (st1, .error io) →
      (∃ e, io = ⟨IoOperation.read, offset, len, some e⟩) ∧
      ∃ pre c, st1.log = st.log ++ (pre ++ [c]) ∧ AllOk st.dev pre ∧
        callFails st.dev c = true) ∧
    (∀ st1 io, storageWrite S al st offset buf = some (st1, some io) →
      (∃ e, io = ⟨IoOperation.write, offset, buf.length, some e⟩) ∧
      ∃ pre c, st1.log = st.log ++ (pre ++ [c]) ∧ AllOk st.dev pre ∧
        callFails st.dev c = true) := by
  constructor
  · intro st1 io h
    unfold storageRead at h
    cases hri : read_internal S al st offset len with
    | none =>
      rw [hri] at h
      simp at h
    | some pr =>
      rw [hri] at h
      cases pr with
      | mk st2 r =>
        cases r with
        | ok bs => simp at h
        | error e =>
          simp only [Option.some.injEq, Prod.mk.injEq, Except.error.injEq] at h
          obtain ⟨h1, h2⟩ := h
          subst h1
          obtain ⟨delta, hlog, hef⟩ :=
            read_internal_error_calls S al st offset len st2 e hri
          obtain ⟨pre, c, hsplit, hpre, hc⟩ := hef
          refine ⟨⟨e, h2.symm⟩, pre, c, ?_, hpre, hc⟩
          rw [hlog, hsplit]
  · intro st1 io h
    unfold storageWrite at h
    cases hwi : write_internal S al st offset buf with
    | none =>
      rw [hwi] at h
      simp at h
    | some pr =>
      rw [hwi] at h
      cases pr with
      | mk st2 r =>
        cases r with
        | none => simp at h
        | some e =>
          simp only [Option.some.injEq, Prod.mk.injEq] at h
          obtain ⟨h1, h2⟩ := h
          subst h1
          obtain ⟨delta, hlog, hef⟩ :=
            write_internal_error_calls S al st offset buf st2 e hwi
          obtain ⟨pre, c, hsplit, hpre, hc⟩ := hef
          refine ⟨⟨e, h2.symm⟩, pre, c, ?_, hpre, hc⟩
          rw [hlog, hsplit]

/-- Witness for C8: on a 2-byte-block device whose block 0 fails to read, a
2-byte read at offset 0 returns the wrapped error and its trace ends at the
failing call. -/
theorem c8_error_wrapping_abort_witness :
    ((∃ e, c8WitIo = ⟨IoOperation.read, 0, 2, some e⟩) ∧
      ∃ pre c, c8WitFinal.log = c8WitState.log ++ (pre ++ [c]) ∧
        AllOk c8WitState.dev pre ∧ callFails c8WitState.dev c = true) :=
  (c8_error_wrapping_abort 2 true c8WitState 0 2 []).1 c8WitFinal c8WitIo (by rfl)

end StorageDev
